import Mathlib

/-!
Verification of the dependency-resolution core of `generate_package_list.py`.

The Python source is shallowly embedded: regular-expression scanning is
modelled by character-level scanners with the exact semantics of the three
compiled patterns, Python `dict`/`set` values are modelled by association
lists (last-binding-wins lookup) and duplicate-free lists, the `toposort`
library is modelled by its Kahn-style round algorithm, and the recursive
closure computation (which has no visited set and can diverge on cyclic
inputs) is given a recursion-depth fuel parameter, with `none` meaning the
computation at that depth budget has not finished.
-/

namespace PkgSnap

/-- ASCII letter, the class `[A-Za-z]` of `re_pkg_name`. -/
def isLetterCh (c : Char) : Bool :=
  (('A' ≤ c ∧ c ≤ 'Z') ∨ ('a' ≤ c ∧ c ≤ 'z') : Bool)

/-- The continuation class `[A-Za-z0-9_.]` of `re_pkg_name`. -/
def isClassCh (c : Char) : Bool :=
  (isLetterCh c ∨ ('0' ≤ c ∧ c ≤ '9') ∨ c = '_' ∨ c = '.' : Bool)

/-- The key class `[A-Za-z0-9]` of `re_key_value`. -/
def isAlnumCh (c : Char) : Bool :=
  (isLetterCh c ∨ ('0' ≤ c ∧ c ≤ '9') : Bool)

/-- ASCII whitespace, the `\s` class of `re_key_value` on the inputs at hand. -/
def isWsCh (c : Char) : Bool :=
  (c = ' ' ∨ c = '\t' ∨ c = '\n' ∨ c = '\r' ∨ c = '\x0b' ∨ c = '\x0c' : Bool)

/-- `re_line_fixer.sub(" ", s)`: every newline followed by a maximal nonempty
run of spaces is replaced by a single space.  The boolean state is true while
absorbing the space run of a match. -/
def lineFixGo : Bool → List Char → List Char
  | _, [] => []
  | true, ' ' :: rest => lineFixGo true rest
  | _, '\n' :: ' ' :: rest => ' ' :: lineFixGo true rest
  | _, c :: rest => c :: lineFixGo false rest

/-- Folding of continuation lines, `re_line_fixer.sub(" ", raw_input)`. -/
def lineFix (s : List Char) : List Char := lineFixGo false s

/-- Split a character list at each newline (the list of lines of the text). -/
def splitLines : List Char → List (List Char)
  | [] => [[]]
  | '\n' :: rest => [] :: splitLines rest
  | c :: rest =>
    match splitLines rest with
    | [] => [[c]]
    | l :: ls => (c :: l) :: ls

/-- `re_key_value.findall` (`^([A-Za-z0-9]+):\s*(.+)$`, MULTILINE), working
line by line.  The state `some (key, ws)` means `key:` was matched and only
whitespace has followed so far; `ws` is the last nonempty whitespace segment
seen, from which the single-character value of the greedy backtrack at end of
input is taken. -/
def kvGo : Option (List Char × List Char) → List (List Char) → List (List Char × List Char)
  | none, [] => []
  | some kw, [] =>
    match kw.2.getLast? with
    | some c => [(kw.1, [c])]
    | none => []
  | some kw, line :: rest =>
    let v := line.dropWhile fun c => isWsCh c
    if v = [] then kvGo (some (kw.1, if line = [] then kw.2 else line)) rest
    else (kw.1, v) :: kvGo none rest
  | none, line :: rest =>
    let key := line.takeWhile fun c => isAlnumCh c
    let r := line.drop key.length
    if key = [] then kvGo none rest
    else
      match r with
      | ':' :: v =>
        let v2 := v.dropWhile fun c => isWsCh c
        if v2 = [] then kvGo (some (key, v)) rest
        else (key, v2) :: kvGo none rest
      | _ => kvGo none rest

/-- The key/value pairs extracted from a raw block:
`re_key_value.findall(re_line_fixer.sub(" ", raw_input))`. -/
def rawPairs (s : List Char) : List (List Char × List Char) :=
  kvGo none (splitLines (lineFix s))

/-- Lookup in a Python `dict` built from a pair list: the last binding of a
key wins. -/
def dictGet {α β : Type} [DecidableEq α] (l : List (α × β)) (k : α) : Option β :=
  (l.reverse.find? fun p => decide (p.1 = k)).map Prod.snd

/-- `re_pkg_name.findall` (`[A-Za-z][A-Za-z0-9_.]+`): `cur` is the reversed
candidate token being accumulated (empty when outside a token). -/
def scanGo : List Char → List Char → List (List Char)
  | cur, [] => if 2 ≤ cur.length then [cur.reverse] else []
  | cur, c :: rest =>
    if cur = [] then
      if isLetterCh c then scanGo [c] rest else scanGo [] rest
    else if isClassCh c then scanGo (c :: cur) rest
    else (if 2 ≤ cur.length then [cur.reverse] else []) ++ scanGo [] rest

/-- Exceptions raised by the Python code: `KeyError` (unknown package or
missing required field) and `toposort.CircularDependencyError`. -/
inductive PyError where
  | keyError : String → PyError
  | circular : PyError
deriving DecidableEq

/-- An R package record (`deps` models the Python `set`, deduplicated). -/
structure RPackage where
  name : String
  version : String
  deps : List String
deriving DecidableEq

/-- Tokens matched in the value of field `f`, or none when absent
(the optional `Depends` / `Imports` / `LinkingTo` scans). -/
def fieldTokens (pairs : List (List Char × List Char)) (f : List Char) : List (List Char) :=
  match dictGet pairs f with
  | some v => scanGo [] v
  | none => []

/-- The deduplicated dependency-name set of a block: `set(deps)` for the
union of the tokens scanned from `Depends`, `Imports` and `LinkingTo`. -/
def depsOf (pairs : List (List Char × List Char)) : List String :=
  ((fieldTokens pairs "Depends".data ++ fieldTokens pairs "Imports".data
    ++ fieldTokens pairs "LinkingTo".data).map fun t => String.mk t).dedup

/-- `RPackage.from_raw`. -/
def from_raw (raw : String) : Except PyError RPackage :=
  match dictGet (rawPairs raw.data) ("Package".data),
      dictGet (rawPairs raw.data) ("Version".data) with
  | none, _ => .error (.keyError "Package")
  | some _, none => .error (.keyError "Version")
  | some n, some ver =>
    .ok { name := String.mk n
          version := String.mk ver
          deps := depsOf (rawPairs raw.data) }

/-- Occurrence test for the two-character separator of `split("\n\n")`. -/
def hasNN : List Char → Bool
  | c1 :: c2 :: rest => (decide (c1 = '\n' ∧ c2 = '\n')) || hasNN (c2 :: rest)
  | _ => false

/-- Python `str.split("\n\n")`: left-to-right, non-overlapping. -/
def splitNN : List Char → List (List Char)
  | [] => [[]]
  | [c] => [[c]]
  | c1 :: c2 :: rest =>
    if c1 = '\n' ∧ c2 = '\n' then [] :: splitNN rest
    else
      match splitNN (c2 :: rest) with
      | [] => [[c1]]
      | l :: ls => (c1 :: l) :: ls

/-- The repository index: the Python `dict[str, RPackage]`, as the pair list
it is built from (`dictGet` gives the dict's lookup). -/
abbrev Repo := List (String × RPackage)

/-- `_parse_repo_package_list`. -/
def parse_repo_package_list (raw : String) : Except PyError Repo :=
  match ((splitNN raw.data).filter fun b => ("Package:".data).isPrefixOf b).mapM
      (fun b => from_raw (String.mk b)) with
  | .error e => .error e
  | .ok pkgs => .ok (pkgs.map fun p => (p.name, p))

/-- The `R_INCLUDED` built-in exclusion list. -/
def R_INCLUDED : List String :=
  ["R", "base", "compiler", "datasets", "graphics", "grDevices", "grid",
   "methods", "parallel", "splines", "stats", "stats4", "tcltk", "utils",
   "tools", "KernSmooth", "MASS", "Matrix", "boot", "class", "cluster",
   "codetools", "foreign", "lattice", "mgcv", "nlme", "nnet", "rpart",
   "spatial", "survival"]

/-- Python `set.update`: union keeping the accumulator's elements first. -/
def listUnion (a b : List String) : List String :=
  a ++ b.filter fun x => decide (x ∉ a)

/-- The `for dep in package.deps` loop body of `_get_sub_dependencies`,
parameterised by the recursive call. -/
def subDepsFold (rec : String → Option (Except PyError (List String))) :
    List String → List String → Option (Except PyError (List String))
  | acc, [] => some (.ok acc)
  | acc, d :: ds =>
    if d ∈ R_INCLUDED then subDepsFold rec acc ds
    else
      match rec d with
      | none => none
      | some (.error e) => some (.error e)
      | some (.ok s) => subDepsFold rec (listUnion acc s) ds

/-- `_get_sub_dependencies`, with a recursion-depth fuel: `none` means the
(unguarded) recursion has not finished within that depth.  The Python call
diverges exactly when no fuel suffices. -/
def get_sub_dependencies (repo : Repo) : Nat → String → Option (Except PyError (List String))
  | 0, _ => none
  | fuel + 1, name =>
    match dictGet repo name with
    | none => some (.error (.keyError name))
    | some p => subDepsFold (fun d => get_sub_dependencies repo fuel d) p.deps p.deps

/-- Python `str.strip()` (ASCII whitespace). -/
def pyStrip (s : String) : String :=
  String.mk (((s.data.dropWhile fun c => isWsCh c).reverse.dropWhile fun c => isWsCh c).reverse)

/-- The seed loop of `_generate_full_dependency_list`: grow `packages_set`
by the sub-dependencies of each listed package, in order. -/
def seedsFold (repo : Repo) (fuel : Nat) :
    List String → List String → Option (Except PyError (List String))
  | acc, [] => some (.ok acc)
  | acc, s :: ss =>
    match get_sub_dependencies repo fuel s with
    | none => none
    | some (.error e) => some (.error e)
    | some (.ok d) => seedsFold repo fuel (listUnion acc d) ss

/-- The `pkgs_dict` comprehension: each non-built-in closure name is mapped
to its record's dependency set; a missing record raises `KeyError`. -/
def buildPkgsDict (repo : Repo) : List String → Except PyError (List (String × List String))
  | [] => .ok []
  | n :: ns =>
    if n ∈ R_INCLUDED then buildPkgsDict repo ns
    else
      match dictGet repo n with
      | none => .error (.keyError n)
      | some p =>
        match buildPkgsDict repo ns with
        | .error e => .error e
        | .ok rest => .ok ((n, p.deps) :: rest)

/-- Lexicographic code-point comparison, Python string `<`. -/
def charListLt : List Char → List Char → Bool
  | [], [] => false
  | [], _ :: _ => true
  | _ :: _, [] => false
  | x :: xs, y :: ys =>
    if x.toNat < y.toNat then true
    else if y.toNat < x.toNat then false
    else charListLt xs ys

/-- Python string `<`. -/
def strLt (a b : String) : Bool := charListLt a.data b.data

/-- Insert into a sorted list. -/
def insSorted (x : String) : List String → List String
  | [] => [x]
  | y :: ys => if strLt y x then y :: insSorted x ys else x :: y :: ys

/-- Python `sorted` on strings (insertion sort; code-point order). -/
def sortStrs (l : List String) : List String := l.foldr insSorted []

/-- The self-dependency discard of `toposort.toposort`. -/
def selfFree (data : List (String × List String)) : List (String × List String) :=
  data.map fun kv => (kv.1, kv.2.filter fun d => decide (d ≠ kv.1))

/-- The items occurring only as dependencies, added with no dependencies. -/
def extrasOf (data : List (String × List String)) : List String :=
  (((selfFree data).flatMap Prod.snd).filter fun d => decide (d ∉ data.map Prod.fst)).dedup

/-- The preprocessing of `toposort.toposort`: discard self-dependencies and
give every name that occurs only as a dependency an empty dependency set. -/
def toposortPrep (data : List (String × List String)) : List (String × List String) :=
  selfFree data ++ (extrasOf data).map fun e => (e, [])

/-- One round's batch: the names whose dependency set is exhausted. -/
def roundBatch (data : List (String × List String)) : List String :=
  (data.filter fun kv => decide (kv.2 = [])).map Prod.fst

/-- The data for the next round: emitted names removed everywhere. -/
def roundNext (data : List (String × List String)) : List (String × List String) :=
  (data.filter fun kv => decide (kv.1 ∉ roundBatch data)).map
    fun kv => (kv.1, kv.2.filter fun d => decide (d ∉ roundBatch data))

/-- The round loop of `toposort.toposort`: repeatedly emit the batch of
names with no remaining dependencies.  Returns the batches and the leftover
data (nonempty exactly on a circular dependency); `none` on fuel exhaustion,
which a sufficient fuel rules out. -/
def toposortRounds : Nat → List (String × List String) →
    Option (List (List String) × List (String × List String))
  | 0, _ => none
  | fuel + 1, data =>
    if roundBatch data = [] then some ([], data)
    else
      match toposortRounds fuel (roundNext data) with
      | none => none
      | some (bs, rest) => some (roundBatch data :: bs, rest)

/-- `toposort.toposort_flatten` (default `sort=True`): concatenate the
sorted batches; a nonempty leftover raises `CircularDependencyError`. -/
def toposort_flatten (data : List (String × List String)) : Except PyError (List String) :=
  match toposortRounds ((toposortPrep data).length + 1) (toposortPrep data) with
  | none => .error .circular
  | some (bs, leftover) =>
    if leftover = [] then .ok (bs.flatMap sortStrs) else .error .circular

/-- The final list comprehension: map each non-built-in sorted name back to
its record. -/
def buildOut (repo : Repo) : List String → Except PyError (List RPackage)
  | [] => .ok []
  | n :: ns =>
    if n ∈ R_INCLUDED then buildOut repo ns
    else
      match dictGet repo n with
      | none => .error (.keyError n)
      | some p =>
        match buildOut repo ns with
        | .error e => .error e
        | .ok rest => .ok (p :: rest)

/-- `_generate_full_dependency_list`: `fileLines` are the lines of the seed
file, `fuel` bounds the depth of the unguarded closure recursion (`none`
when that recursion has not finished within the budget). -/
def generate_full_dependency_list (fuel : Nat) (fileLines : List String) (repo : Repo) :
    Option (Except PyError (List RPackage)) :=
  match seedsFold repo fuel ((fileLines.map pyStrip).dedup) (fileLines.map pyStrip) with
  | none => none
  | some (.error e) => some (.error e)
  | some (.ok pset) =>
    some (match buildPkgsDict repo pset with
      | .error e => .error e
      | .ok pd =>
        match toposort_flatten pd with
        | .error e => .error e
        | .ok sorted => buildOut repo sorted)

/-! ### Generic lemmas about the Python dict model -/

theorem find?_eq_head?_filter {α : Type} (p : α → Bool) :
    ∀ l : List α, l.find? p = (l.filter p).head?
  | [] => rfl
  | a :: l => by
    by_cases h : p a = true
    · rw [List.find?_cons_of_pos _ h, List.filter_cons, if_pos h, List.head?_cons]
    · rw [List.find?_cons_of_neg _ h, List.filter_cons, if_neg h, find?_eq_head?_filter p l]

theorem dictGet_eq_getLast?_filter {α β : Type} [DecidableEq α]
    (l : List (α × β)) (k : α) :
    dictGet l k = ((l.filter fun p => decide (p.1 = k)).getLast?).map Prod.snd := by
  rw [dictGet, find?_eq_head?_filter, List.filter_reverse, List.head?_reverse]

/-- C7: in the key/value extraction of `RPackage.from_raw` (a Python `dict`
built from the `findall` pair list of the folded block), a key occurring in
two or more pairs is mapped to the value of its last occurrence. -/
theorem c7_duplicate_key_last_wins (raw : String) (k : List Char)
    (h : 2 ≤ ((rawPairs raw.data).filter fun p => decide (p.1 = k)).length) :
    ∃ v, ((rawPairs raw.data).filter fun p => decide (p.1 = k)).getLast? = some (k, v) ∧
      dictGet (rawPairs raw.data) k = some v := by
  have hne : ((rawPairs raw.data).filter fun p => decide (p.1 = k)) ≠ [] := by
    intro hnil
    rw [hnil] at h
    simp at h
  have hmem := List.getLast_mem hne
  have hk : (((rawPairs raw.data).filter fun p => decide (p.1 = k)).getLast hne).1 = k := by
    have h2 := (List.mem_filter.mp hmem).2
    simpa using h2
  refine ⟨(((rawPairs raw.data).filter fun p => decide (p.1 = k)).getLast hne).2, ?_, ?_⟩
  · rw [List.getLast?_eq_getLast _ hne]
    congr 1
    exact Prod.ext hk rfl
  · rw [dictGet_eq_getLast?_filter, List.getLast?_eq_getLast _ hne]
    rfl

/-- Witness for C7 on a block with a duplicated `Package` line. -/
theorem c7_duplicate_key_last_wins_witness :
    (2 ≤ ((rawPairs ("Package: aa\nPackage: bb\nVersion: 1").data).filter
        fun p => decide (p.1 = "Package".data)).length) ∧
    (∃ v, ((rawPairs ("Package: aa\nPackage: bb\nVersion: 1").data).filter
        fun p => decide (p.1 = "Package".data)).getLast? = some ("Package".data, v) ∧
      dictGet (rawPairs ("Package: aa\nPackage: bb\nVersion: 1").data) ("Package".data) = some v) :=
  ⟨by decide, c7_duplicate_key_last_wins "Package: aa\nPackage: bb\nVersion: 1" ("Package".data)
    (by decide)⟩

/-! ### C6: missing required fields -/

theorem except_bind_ok {ε α β : Type} (a : α) (g : α → Except ε β) :
    (Except.ok a : Except ε α) >>= g = g a := rfl

theorem except_bind_error {ε α β : Type} (e : ε) (g : α → Except ε β) :
    (Except.error e : Except ε α) >>= g = Except.error e := rfl

theorem mapM_error_of_mem {α β : Type} (f : α → Except PyError β) {l : List α} {a : α}
    (ha : a ∈ l) {e : PyError} (hf : f a = .error e) : ∃ e2, l.mapM f = .error e2 := by
  induction l with
  | nil => cases ha
  | cons b t ih =>
    rw [List.mapM_cons]
    rcases hb : f b with eb | vb
    · exact ⟨eb, by rw [except_bind_error]⟩
    · rcases List.mem_cons.mp ha with ha | ha
      · rw [ha, hb] at hf
        cases hf
      · obtain ⟨e2, h2⟩ := ih ha
        exact ⟨e2, by rw [except_bind_ok, h2, except_bind_error]⟩

/-- C6: a raw block lacking a `Package` or a `Version` pair makes
`RPackage.from_raw` raise the corresponding `KeyError`, and a raw listing in
which such a block qualifies (split at `\n\n`, `Package:` prefix) makes
`_parse_repo_package_list` propagate a hard error: no mapping is returned. -/
theorem c6_missing_required_field_errors (block : String)
    (h : dictGet (rawPairs block.data) ("Package".data) = none ∨
         dictGet (rawPairs block.data) ("Version".data) = none) :
    (from_raw block = .error (.keyError "Package") ∨
     from_raw block = .error (.keyError "Version")) ∧
    ∀ listing : String, block.data ∈ splitNN listing.data →
      ("Package:".data).isPrefixOf block.data →
      ∃ e, parse_repo_package_list listing = .error e := by
  have hfrom : from_raw block = .error (.keyError "Package") ∨
      from_raw block = .error (.keyError "Version") := by
    rcases hp : dictGet (rawPairs block.data) ("Package".data) with _ | n
    · left
      unfold from_raw
      rw [hp]
    · rcases hv : dictGet (rawPairs block.data) ("Version".data) with _ | v
      · right
        unfold from_raw
        rw [hp, hv]
      · rcases h with h | h
        · rw [hp] at h
          cases h
        · rw [hv] at h
          cases h
  refine ⟨hfrom, fun listing hmem hpre => ?_⟩
  have hmemf : block.data ∈ (splitNN listing.data).filter
      fun b => ("Package:".data).isPrefixOf b :=
    List.mem_filter.mpr ⟨hmem, hpre⟩
  have hmk : String.mk block.data = block := rfl
  have herr : from_raw (String.mk block.data) = .error (.keyError "Package") ∨
      from_raw (String.mk block.data) = .error (.keyError "Version") := by
    rw [hmk]
    exact hfrom
  have : ∃ e2, ((splitNN listing.data).filter
      fun b => ("Package:".data).isPrefixOf b).mapM (fun b => from_raw (String.mk b)) =
      .error e2 := by
    rcases herr with herr | herr
    · exact mapM_error_of_mem _ hmemf herr
    · exact mapM_error_of_mem _ hmemf herr
  obtain ⟨e2, h2⟩ := this
  refine ⟨e2, ?_⟩
  unfold parse_repo_package_list
  rw [h2]

/-- Witness for C6 on a block lacking the `Package` field. -/
theorem c6_missing_required_field_errors_witness :
    (dictGet (rawPairs ("Version: 1.0").data) ("Package".data) = none ∨
     dictGet (rawPairs ("Version: 1.0").data) ("Version".data) = none) ∧
    ((from_raw "Version: 1.0" = .error (.keyError "Package") ∨
      from_raw "Version: 1.0" = .error (.keyError "Version")) ∧
     ∀ listing : String, ("Version: 1.0").data ∈ splitNN listing.data →
       ("Package:".data).isPrefixOf ("Version: 1.0").data →
       ∃ e, parse_repo_package_list listing = .error e) :=
  ⟨Or.inl (by decide), c6_missing_required_field_errors "Version: 1.0" (Or.inl (by decide))⟩

/-! ### C9: block splitting on the exact separator `\n\n` -/

theorem splitNN_no_sep : ∀ z : List Char, hasNN z = false → splitNN z = [z]
  | [], _ => rfl
  | [_], _ => rfl
  | c1 :: c2 :: rest, hz => by
    have hz2 := hz
    rw [hasNN, Bool.or_eq_false_iff] at hz2
    obtain ⟨h1, h2⟩ := hz2
    rw [splitNN, if_neg (by simpa using h1), splitNN_no_sep (c2 :: rest) h2]

theorem splitNN_sep :
    ∀ a : List Char, hasNN a = false → a.getLast? ≠ some '\n' →
      ∀ y : List Char, splitNN (a ++ '\n' :: '\n' :: y) = a :: splitNN y
  | [], _, _, y => by
    rw [List.nil_append, splitNN, if_pos ⟨rfl, rfl⟩]
  | [c], _, hl, y => by
    have hc : ¬(c = '\n' ∧ '\n' = '\n') := by
      intro hand
      exact hl (by rw [hand.1]; rfl)
    show splitNN (c :: '\n' :: '\n' :: y) = [c] :: splitNN y
    rw [splitNN, if_neg hc, splitNN, if_pos ⟨rfl, rfl⟩]
  | c1 :: c2 :: a2, ha, hl, y => by
    have ha2 := ha
    rw [hasNN, Bool.or_eq_false_iff] at ha2
    obtain ⟨h1, h2⟩ := ha2
    have hl2 : (c2 :: a2).getLast? ≠ some '\n' := by
      rw [List.getLast?_cons_cons] at hl
      exact hl
    have hrec := splitNN_sep (c2 :: a2) h2 hl2 y
    show splitNN (c1 :: (c2 :: a2 ++ '\n' :: '\n' :: y)) = (c1 :: c2 :: a2) :: splitNN y
    rw [List.cons_append] at hrec ⊢
    rw [splitNN, if_neg (by simpa using h1), hrec]

/-- C9 counterexample: two package entries separated by three consecutive
blank lines (a run of four newlines).  Splitting on the exact two-character
separator eats the newlines pairwise, the fragment before the second entry
is the empty string (not a fragment beginning with a newline), and the
second entry is kept, not omitted. -/
theorem c9_counterexample :
    parse_repo_package_list "Package: aa\nVersion: 1\n\n\n\nPackage: bb\nVersion: 2" =
      .ok [("aa", ⟨"aa", "1", []⟩), ("bb", ⟨"bb", "2", []⟩)] := rfl

/-- C9 amended: when two entries are separated by exactly two consecutive
blank lines (a run of three newlines), the fragment holding the later entry
begins with a newline, fails the `Package:` prefix test and is silently
dropped: parsing the listing equals parsing the first entry alone. -/
theorem c9_amended_extra_blank_line_drops_entry (a b : List Char)
    (ha : hasNN a = false) (hla : a.getLast? ≠ some '\n')
    (hb : hasNN ('\n' :: b) = false) :
    parse_repo_package_list (String.mk (a ++ '\n' :: '\n' :: '\n' :: b)) =
      parse_repo_package_list (String.mk a) := by
  have hsplit : splitNN (a ++ '\n' :: '\n' :: '\n' :: b) = a :: splitNN ('\n' :: b) :=
    splitNN_sep a ha hla ('\n' :: b)
  have hsplit2 : splitNN ('\n' :: b) = ['\n' :: b] := splitNN_no_sep _ hb
  have hnopre : ("Package:".data).isPrefixOf ('\n' :: b) = false := by
    simp [List.isPrefixOf]
  unfold parse_repo_package_list
  have hdata : (String.mk (a ++ '\n' :: '\n' :: '\n' :: b)).data =
      a ++ '\n' :: '\n' :: '\n' :: b := rfl
  have hdata2 : (String.mk a).data = a := rfl
  rw [hdata, hdata2, hsplit, hsplit2, splitNN_no_sep a ha]
  simp only [List.filter_cons, List.filter_nil, hnopre, Bool.false_eq_true, if_false]

/-- Witness for the amended C9 on two concrete entries. -/
theorem c9_amended_extra_blank_line_drops_entry_witness :
    (hasNN ("Package: aa\nVersion: 1").data = false ∧
     ("Package: aa\nVersion: 1").data.getLast? ≠ some '\n' ∧
     hasNN ('\n' :: ("Package: bb\nVersion: 2").data) = false) ∧
    parse_repo_package_list (String.mk (("Package: aa\nVersion: 1").data ++
        '\n' :: '\n' :: '\n' :: ("Package: bb\nVersion: 2").data)) =
      parse_repo_package_list (String.mk ("Package: aa\nVersion: 1").data) :=
  ⟨⟨by decide, by decide, by decide⟩,
    c9_amended_extra_blank_line_drops_entry ("Package: aa\nVersion: 1").data
      ("Package: bb\nVersion: 2").data (by decide) (by decide) (by decide)⟩

/-! ### C5: token scanning of the dependency fields -/

/-- A word matching `[A-Za-z][A-Za-z0-9_.]+`: a letter followed by a
nonempty run of identifier characters (so length at least 2). -/
def TokenShaped (t : List Char) : Prop :=
  ∃ c rest, t = c :: rest ∧ isLetterCh c = true ∧ rest ≠ [] ∧ ∀ x ∈ rest, isClassCh x = true

/-- `t` occurs in `v` as a maximal pattern match: it is token shaped and is
delimited on both sides by a non-identifier character or the text boundary. -/
def MaxTokenAt (v t : List Char) : Prop :=
  ∃ pre post, v = pre ++ t ++ post ∧ TokenShaped t ∧
    (∀ c, pre.getLast? = some c → isClassCh c = false) ∧
    (∀ c, post.head? = some c → isClassCh c = false)

theorem isClassCh_of_isLetterCh {c : Char} (h : isLetterCh c = true) : isClassCh c = true := by
  rw [isClassCh, h]
  rfl

theorem tokenShaped_of_rev (cur : List Char) (h2 : 2 ≤ cur.length)
    (hcls : ∀ x ∈ cur, isClassCh x = true)
    (hlast : ∀ c L, cur = L ++ [c] → isLetterCh c = true) :
    TokenShaped cur.reverse := by
  rcases List.eq_nil_or_concat cur with hnil | ⟨L, b, hLb⟩
  · rw [hnil] at h2
    simp at h2
  · rw [List.concat_eq_append] at hLb
    refine ⟨b, L.reverse, ?_, hlast b L hLb, ?_, ?_⟩
    · rw [hLb, List.reverse_append, List.reverse_cons, List.reverse_nil, List.nil_append]
      rfl
    · intro hLrev
      rw [hLb] at h2
      rw [List.reverse_eq_nil_iff] at hLrev
      rw [hLrev] at h2
      simp at h2
    · intro x hx
      exact hcls x (by rw [hLb]; exact List.mem_append_left _ (List.mem_reverse.mp hx))

theorem scanGo_sound : ∀ (s cur : List Char),
    (∀ x ∈ cur, isClassCh x = true) →
    (∀ c L, cur = L ++ [c] → isLetterCh c = true) →
    ∀ t ∈ scanGo cur s, TokenShaped t
  | [], cur, hcls, hlast, t, ht => by
    rw [scanGo] at ht
    by_cases h2 : 2 ≤ cur.length
    · rw [if_pos h2] at ht
      rcases List.mem_singleton.mp ht with rfl
      exact tokenShaped_of_rev cur h2 hcls hlast
    · rw [if_neg h2] at ht
      cases ht
  | c :: rest, cur, hcls, hlast, t, ht => by
    rw [scanGo] at ht
    by_cases hc : cur = []
    · rw [if_pos hc] at ht
      by_cases hl : isLetterCh c = true
      · rw [if_pos hl] at ht
        refine scanGo_sound rest [c] ?_ ?_ t ht
        · intro x hx
          rcases List.mem_singleton.mp hx with rfl
          exact isClassCh_of_isLetterCh hl
        · intro c2 L hL
          have : c2 = c := by
            have := congrArg List.getLast? hL
            simp at this
            exact this.symm
          rw [this]
          exact hl
      · rw [if_neg hl] at ht
        exact scanGo_sound rest [] (by intro x hx; cases hx) (by intro c2 L hL; cases L <;> cases hL) t ht
    · rw [if_neg hc] at ht
      by_cases hcl : isClassCh c = true
      · rw [if_pos hcl] at ht
        refine scanGo_sound rest (c :: cur) ?_ ?_ t ht
        · intro x hx
          rcases List.mem_cons.mp hx with rfl | hx
          · exact hcl
          · exact hcls x hx
        · intro c2 L hL
          rcases List.eq_nil_or_concat cur with hnil | ⟨L2, b, hLb⟩
          · exact absurd hnil hc
          · rw [List.concat_eq_append] at hLb
            have hg1 : (c :: cur).getLast? = some c2 := by
              rw [hL]
              simp
            have hg2 : (c :: cur).getLast? = some b := by
              rw [hLb]
              have hsh : c :: (L2 ++ [b]) = (c :: L2) ++ [b] := rfl
              rw [hsh, List.getLast?_concat]
            rw [hg1] at hg2
            have hc2 : c2 = b := by injection hg2
            rw [hc2]
            exact hlast b L2 hLb
      · rw [if_neg hcl] at ht
        rcases List.mem_append.mp ht with ht | ht
        · by_cases h2 : 2 ≤ cur.length
          · rw [if_pos h2] at ht
            rcases List.mem_singleton.mp ht with rfl
            exact tokenShaped_of_rev cur h2 hcls hlast
          · rw [if_neg h2] at ht
            cases ht
        · exact scanGo_sound rest [] (by intro x hx; cases hx) (by intro c2 L hL; cases L <;> cases hL) t ht

theorem scanGo_fill : ∀ (run cur post : List Char),
    (∀ x ∈ run, isClassCh x = true) → cur ≠ [] →
    scanGo cur (run ++ post) = scanGo (run.reverse ++ cur) post
  | [], cur, post, _, _ => by rw [List.nil_append, List.reverse_nil, List.nil_append]
  | x :: run, cur, post, hcls, hcur => by
    rw [List.cons_append, scanGo, if_neg hcur, if_pos (hcls x (List.mem_cons_self x run)),
      scanGo_fill run (x :: cur) post (fun y hy => hcls y (List.mem_cons_of_mem x hy))
        (by simp)]
    rw [List.reverse_cons, List.append_assoc]
    rfl

theorem scanGo_start (t post : List Char) (ht : TokenShaped t)
    (hpost : ∀ c, post.head? = some c → isClassCh c = false) :
    t ∈ scanGo [] (t ++ post) := by
  obtain ⟨c, rest, rfl, hl, hne, hcls⟩ := ht
  rw [List.cons_append, scanGo, if_pos rfl, if_pos hl,
    scanGo_fill rest [c] post hcls (by simp)]
  have hcur2 : 2 ≤ (rest.reverse ++ [c]).length := by
    rcases rest with _ | ⟨r, rs⟩
    · exact absurd rfl hne
    · simp
  have hcurrev : (rest.reverse ++ [c]).reverse = c :: rest := by
    rw [List.reverse_append, List.reverse_reverse]
    rfl
  rcases post with _ | ⟨p, ps⟩
  · rw [scanGo, if_pos hcur2, hcurrev]
    exact List.mem_singleton.mpr rfl
  · have hpcls : isClassCh p = false := hpost p rfl
    have hcurne : rest.reverse ++ [c] ≠ [] := by simp
    rw [scanGo, if_neg hcurne, hpcls]
    simp only [Bool.false_eq_true, if_false, if_pos hcur2, hcurrev]
    exact List.mem_append_left _ (List.mem_singleton.mpr rfl)

theorem scanGo_complete_aux : ∀ (pre cur t post : List Char),
    TokenShaped t → (∀ c, post.head? = some c → isClassCh c = false) →
    (pre = [] → cur = []) → (∀ c, pre.getLast? = some c → isClassCh c = false) →
    t ∈ scanGo cur (pre ++ t ++ post)
  | [], cur, t, post, ht, hpost, hcur, _ => by
    rw [hcur rfl, List.nil_append]
    exact scanGo_start t post ht hpost
  | p :: pre, cur, t, post, ht, hpost, _, hpre => by
    rw [List.cons_append, List.cons_append, scanGo]
    rcases hpre2 : pre with _ | ⟨q, qre⟩
    · have hpcls : isClassCh p = false := by
        apply hpre
        rw [hpre2]
        rfl
      have hplet : isLetterCh p = false := by
        rcases hl : isLetterCh p with _ | _
        · rfl
        · rw [isClassCh_of_isLetterCh hl] at hpcls
          cases hpcls
      simp only [List.nil_append]
      by_cases hc : cur = []
      · rw [if_pos hc, hplet]
        simp only [Bool.false_eq_true, if_false]
        exact scanGo_start t post ht hpost
      · rw [if_neg hc, hpcls]
        simp only [Bool.false_eq_true, if_false]
        exact List.mem_append_right _ (scanGo_start t post ht hpost)
    · have hpre3 : ∀ c, (q :: qre).getLast? = some c → isClassCh c = false := by
        intro c hcc
        apply hpre
        rw [hpre2, List.getLast?_cons_cons]
        rcases qre with _ | _
        · exact hcc
        · exact hcc
      by_cases hc : cur = []
      · rw [if_pos hc]
        by_cases hl : isLetterCh p = true
        · rw [if_pos hl]
          exact scanGo_complete_aux (q :: qre) [p] t post ht hpost (by intro h; cases h) hpre3
        · rw [if_neg hl]
          exact scanGo_complete_aux (q :: qre) [] t post ht hpost (by intro h; cases h) hpre3
      · rw [if_neg hc]
        by_cases hcl : isClassCh p = true
        · rw [if_pos hcl]
          exact scanGo_complete_aux (q :: qre) (p :: cur) t post ht hpost
            (by intro h; cases h) hpre3
        · rw [if_neg hcl]
          exact List.mem_append_right _
            (scanGo_complete_aux (q :: qre) [] t post ht hpost (by intro h; cases h) hpre3)

/-- Every maximal pattern match in `v` is among the scanned tokens of `v`. -/
theorem scanGo_complete (v t : List Char) (h : MaxTokenAt v t) : t ∈ scanGo [] v := by
  obtain ⟨pre, post, rfl, ht, hpre, hpost⟩ := h
  exact scanGo_complete_aux pre [] t post ht hpost (fun _ => rfl) hpre

theorem from_raw_ok_deps (raw : String) (pkg : RPackage) (h : from_raw raw = .ok pkg) :
    pkg.deps = depsOf (rawPairs raw.data) := by
  unfold from_raw at h
  rcases hp : dictGet (rawPairs raw.data) ("Package".data) with _ | n <;> rw [hp] at h
  · cases h
  · rcases hv : dictGet (rawPairs raw.data) ("Version".data) with _ | v <;> rw [hv] at h
    · cases h
    · injection h with h2
      rw [← h2]

theorem mem_depsOf_iff (pairs : List (List Char × List Char)) (x : String) :
    x ∈ depsOf pairs ↔ ∃ t,
      (t ∈ fieldTokens pairs ("Depends".data) ∨ t ∈ fieldTokens pairs ("Imports".data) ∨
        t ∈ fieldTokens pairs ("LinkingTo".data)) ∧ x = String.mk t := by
  rw [depsOf, List.mem_dedup, List.mem_map]
  constructor
  · rintro ⟨t, hmem, rfl⟩
    rcases List.mem_append.mp hmem with hmem | hmem
    · rcases List.mem_append.mp hmem with hmem | hmem
      · exact ⟨t, Or.inl hmem, rfl⟩
      · exact ⟨t, Or.inr (Or.inl hmem), rfl⟩
    · exact ⟨t, Or.inr (Or.inr hmem), rfl⟩
  · rintro ⟨t, hmem, rfl⟩
    refine ⟨t, ?_, rfl⟩
    rcases hmem with hmem | hmem | hmem
    · exact List.mem_append_left _ (List.mem_append_left _ hmem)
    · exact List.mem_append_left _ (List.mem_append_right _ hmem)
    · exact List.mem_append_right _ hmem

theorem tokenShaped_of_mem_fieldTokens (pairs : List (List Char × List Char))
    (f t : List Char) (h : t ∈ fieldTokens pairs f) : TokenShaped t := by
  rw [fieldTokens] at h
  rcases hv : dictGet pairs f with _ | v <;> rw [hv] at h
  · cases h
  · exact scanGo_sound v [] (by intro x hx; cases hx) (by intro c L hL; cases L <;> cases hL) t h

/-- C5: for a successfully parsed block, every maximal identifier-pattern
match in the value of `Depends`, `Imports` or `LinkingTo` is in the record's
dependency set; the dependency set is exactly the union of the tokens the
pattern scan matches in the three fields; and every member is shaped like
the pattern (a letter followed by at least one identifier character), so
non-matching text contributes nothing. -/
theorem c5_dependency_tokens (raw : String) (pkg : RPackage) (h : from_raw raw = .ok pkg) :
    (∀ v, dictGet (rawPairs raw.data) ("Depends".data) = some v →
      ∀ t, MaxTokenAt v t → String.mk t ∈ pkg.deps) ∧
    (∀ v, dictGet (rawPairs raw.data) ("Imports".data) = some v →
      ∀ t, MaxTokenAt v t → String.mk t ∈ pkg.deps) ∧
    (∀ v, dictGet (rawPairs raw.data) ("LinkingTo".data) = some v →
      ∀ t, MaxTokenAt v t → String.mk t ∈ pkg.deps) ∧
    (∀ x : String, x ∈ pkg.deps ↔ ∃ t,
      (t ∈ fieldTokens (rawPairs raw.data) ("Depends".data) ∨
       t ∈ fieldTokens (rawPairs raw.data) ("Imports".data) ∨
       t ∈ fieldTokens (rawPairs raw.data) ("LinkingTo".data)) ∧ x = String.mk t) ∧
    (∀ x : String, x ∈ pkg.deps → TokenShaped x.data) := by
  have hdeps := from_raw_ok_deps raw pkg h
  refine ⟨?_, ?_, ?_, ?_, ?_⟩
  · intro v hv t ht
    rw [hdeps, mem_depsOf_iff]
    refine ⟨t, Or.inl ?_, rfl⟩
    rw [fieldTokens, hv]
    exact scanGo_complete v t ht
  · intro v hv t ht
    rw [hdeps, mem_depsOf_iff]
    refine ⟨t, Or.inr (Or.inl ?_), rfl⟩
    rw [fieldTokens, hv]
    exact scanGo_complete v t ht
  · intro v hv t ht
    rw [hdeps, mem_depsOf_iff]
    refine ⟨t, Or.inr (Or.inr ?_), rfl⟩
    rw [fieldTokens, hv]
    exact scanGo_complete v t ht
  · intro x
    rw [hdeps]
    exact mem_depsOf_iff (rawPairs raw.data) x
  · intro x hx
    rw [hdeps, mem_depsOf_iff] at hx
    obtain ⟨t, hmem, rfl⟩ := hx
    have hdata : (String.mk t).data = t := rfl
    rw [hdata]
    rcases hmem with hmem | hmem | hmem
    · exact tokenShaped_of_mem_fieldTokens _ _ t hmem
    · exact tokenShaped_of_mem_fieldTokens _ _ t hmem
    · exact tokenShaped_of_mem_fieldTokens _ _ t hmem

theorem maxTokenAt_alpha : MaxTokenAt ("alpha, beta").data ("alpha".data) := by
  refine ⟨[], (", beta").data, rfl, ?_, ?_, ?_⟩
  · exact ⟨'a', "lpha".data, rfl, by decide, by decide, by decide⟩
  · intro c hc
    cases hc
  · intro c hc
    injection hc with hc
    rw [← hc]
    rfl

/-- Witness for C5 on `Imports: alpha, beta`: both names land in `deps`. -/
theorem c5_dependency_tokens_witness :
    from_raw "Package: p1\nVersion: 1\nImports: alpha, beta" =
      .ok { name := "p1", version := "1", deps := ["alpha", "beta"] } ∧
    MaxTokenAt ("alpha, beta").data ("alpha".data) ∧
    ("alpha" : String) ∈
      ({ name := "p1", version := "1", deps := ["alpha", "beta"] } : RPackage).deps :=
  ⟨rfl, maxTokenAt_alpha,
    (c5_dependency_tokens "Package: p1\nVersion: 1\nImports: alpha, beta"
        { name := "p1", version := "1", deps := ["alpha", "beta"] } rfl).2.1
      ("alpha, beta".data) (by decide) ("alpha".data) maxTokenAt_alpha⟩

/-! ### The closure computation -/

/-- The dependency list of a name's record in the index (empty if absent). -/
def repoDeps (repo : Repo) (s : String) : List String :=
  match dictGet repo s with
  | some p => p.deps
  | none => []

/-- `b` is reached from `a` by at least one dependency edge, where the
expansion never continues through a built-in name (built-ins can only be
the final step). -/
inductive Discovered (repo : Repo) : String → String → Prop
  | direct {a b : String} (p : RPackage) (hp : dictGet repo a = some p) (hb : b ∈ p.deps) :
      Discovered repo a b
  | step {a c b : String} (p : RPackage) (hp : dictGet repo a = some p) (hc : c ∈ p.deps)
      (hnb : c ∉ R_INCLUDED) (h : Discovered repo c b) : Discovered repo a b

theorem mem_listUnion {y : String} {a b : List String} :
    y ∈ listUnion a b ↔ y ∈ a ∨ y ∈ b := by
  rw [listUnion, List.mem_append]
  constructor
  · rintro (h | h)
    · exact Or.inl h
    · exact Or.inr (List.mem_filter.mp h).1
  · rintro (h | h)
    · exact Or.inl h
    · by_cases ha : y ∈ a
      · exact Or.inl ha
      · exact Or.inr (List.mem_filter.mpr ⟨h, by simpa using ha⟩)

theorem subDepsFold_ok (rec : String → Option (Except PyError (List String))) :
    ∀ (ds acc D : List String), subDepsFold rec acc ds = some (.ok D) →
      (∀ y ∈ acc, y ∈ D) ∧
      (∀ d ∈ ds, d ∉ R_INCLUDED → ∃ Dd, rec d = some (.ok Dd) ∧ ∀ y ∈ Dd, y ∈ D) ∧
      (∀ y ∈ D, y ∈ acc ∨ ∃ d, d ∈ ds ∧ d ∉ R_INCLUDED ∧
        ∃ Dd, rec d = some (.ok Dd) ∧ y ∈ Dd)
  | [], acc, D, h => by
    rw [subDepsFold] at h
    injection h with h
    injection h with h
    subst h
    exact ⟨fun y hy => hy, fun d hd => absurd hd (List.not_mem_nil d),
      fun y hy => Or.inl hy⟩
  | d :: ds, acc, D, h => by
    rw [subDepsFold] at h
    by_cases hb : d ∈ R_INCLUDED
    · rw [if_pos hb] at h
      obtain ⟨h1, h2, h3⟩ := subDepsFold_ok rec ds acc D h
      refine ⟨h1, ?_, ?_⟩
      · intro d2 hd2 hnb2
        rcases List.mem_cons.mp hd2 with rfl | hd2
        · exact absurd hb hnb2
        · exact h2 d2 hd2 hnb2
      · intro y hy
        rcases h3 y hy with hy | ⟨d2, hd2, hrest⟩
        · exact Or.inl hy
        · exact Or.inr ⟨d2, List.mem_cons_of_mem d hd2, hrest⟩
    · rw [if_neg hb] at h
      rcases hrec : rec d with _ | re <;> rw [hrec] at h
      · cases h
      · rcases re with e | s
        · cases h
        · obtain ⟨h1, h2, h3⟩ := subDepsFold_ok rec ds (listUnion acc s) D h
          refine ⟨?_, ?_, ?_⟩
          · intro y hy
            exact h1 y (mem_listUnion.mpr (Or.inl hy))
          · intro d2 hd2 hnb2
            rcases List.mem_cons.mp hd2 with rfl | hd2
            · exact ⟨s, hrec, fun y hy => h1 y (mem_listUnion.mpr (Or.inr hy))⟩
            · exact h2 d2 hd2 hnb2
          · intro y hy
            rcases h3 y hy with hy2 | ⟨d2, hd2, hrest⟩
            · rcases mem_listUnion.mp hy2 with hy2 | hy2
              · exact Or.inl hy2
              · exact Or.inr ⟨d, List.mem_cons_self d ds, hb, s, hrec, hy2⟩
            · exact Or.inr ⟨d2, List.mem_cons_of_mem d hd2, hrest⟩

theorem subDepsFold_error (rec : String → Option (Except PyError (List String))) :
    ∀ (ds acc : List String) (e : PyError), subDepsFold rec acc ds = some (.error e) →
      ∃ d ∈ ds, d ∉ R_INCLUDED ∧ rec d = some (.error e)
  | [], acc, e, h => by
    rw [subDepsFold] at h
    injection h with h
    cases h
  | d :: ds, acc, e, h => by
    rw [subDepsFold] at h
    by_cases hb : d ∈ R_INCLUDED
    · rw [if_pos hb] at h
      obtain ⟨d2, hd2, hrest⟩ := subDepsFold_error rec ds acc e h
      exact ⟨d2, List.mem_cons_of_mem d hd2, hrest⟩
    · rw [if_neg hb] at h
      rcases hrec : rec d with _ | re <;> rw [hrec] at h
      · cases h
      · rcases re with e2 | s
        · injection h with h
          injection h with h
          subst h
          exact ⟨d, List.mem_cons_self d ds, hb, hrec⟩
        · obtain ⟨d2, hd2, hrest⟩ := subDepsFold_error rec ds (listUnion acc s) e h
          exact ⟨d2, List.mem_cons_of_mem d hd2, hrest⟩

/-- When the closure call finishes with a set, that set is exactly the
collection of names discovered from the start name. -/
theorem get_sub_ok_iff (repo : Repo) :
    ∀ (fuel : Nat) (name : String) (D : List String),
      get_sub_dependencies repo fuel name = some (.ok D) →
      ∀ y, y ∈ D ↔ Discovered repo name y
  | 0, name, D, h => by cases h
  | fuel + 1, name, D, h => by
    rw [get_sub_dependencies] at h
    rcases hp : dictGet repo name with _ | p <;> rw [hp] at h
    · injection h with h
      cases h
    · obtain ⟨h1, h2, h3⟩ := subDepsFold_ok _ p.deps p.deps D h
      intro y
      constructor
      · intro hy
        rcases h3 y hy with hy2 | ⟨d, hd, hnb, Dd, hrec, hyD⟩
        · exact Discovered.direct p hp hy2
        · exact Discovered.step p hp hd hnb
            ((get_sub_ok_iff repo fuel d Dd hrec y).mp hyD)
      · intro hy
        cases hy with
        | direct p2 hp2 hb =>
          rw [hp] at hp2
          injection hp2 with hp2
          subst hp2
          exact h1 y hb
        | step p2 hp2 hc hnb hdisc =>
          rw [hp] at hp2
          injection hp2 with hp2
          subst hp2
          obtain ⟨Dd, hrec, hsub⟩ := h2 _ hc hnb
          exact hsub y ((get_sub_ok_iff repo fuel _ Dd hrec y).mpr hdisc)

/-- When the closure call finishes with an error, it is a `KeyError` naming
a package absent from the index. -/
theorem get_sub_error (repo : Repo) :
    ∀ (fuel : Nat) (name : String) (e : PyError),
      get_sub_dependencies repo fuel name = some (.error e) →
      ∃ m, e = .keyError m ∧ dictGet repo m = none
  | 0, name, e, h => by cases h
  | fuel + 1, name, e, h => by
    rw [get_sub_dependencies] at h
    rcases hp : dictGet repo name with _ | p <;> rw [hp] at h
    · injection h with h
      injection h with h
      subst h
      exact ⟨name, rfl, hp⟩
    · obtain ⟨d, _, _, hrec⟩ := subDepsFold_error _ p.deps p.deps e h
      exact get_sub_error repo fuel d e hrec

theorem get_sub_missing (repo : Repo) (fuel : Nat) (name : String)
    (h : dictGet repo name = none) :
    get_sub_dependencies repo (fuel + 1) name = some (.error (.keyError name)) := by
  rw [get_sub_dependencies, h]

theorem get_sub_not_ok_of_missing (repo : Repo) (name : String)
    (h : dictGet repo name = none) (fuel : Nat) (D : List String) :
    get_sub_dependencies repo fuel name ≠ some (.ok D) := by
  rcases fuel with _ | fuel
  · intro hc
    cases hc
  · rw [get_sub_missing repo fuel name h]
    intro hc
    injection hc with hc
    cases hc

/-- A discovered non-built-in name missing from the index prevents the
closure call from finishing with a set. -/
theorem get_sub_not_ok_of_discovered_missing (repo : Repo) {a n : String}
    (hdisc : Discovered repo a n) (hnb : n ∉ R_INCLUDED)
    (hnone : dictGet repo n = none) :
    ∀ (fuel : Nat) (D : List String), get_sub_dependencies repo fuel a ≠ some (.ok D) := by
  induction hdisc with
  | direct p hp hb =>
    intro fuel D h
    rcases fuel with _ | fuel
    · cases h
    · rw [get_sub_dependencies, hp] at h
      obtain ⟨_, h2, _⟩ := subDepsFold_ok _ p.deps p.deps D h
      obtain ⟨Dd, hrec, _⟩ := h2 _ hb hnb
      exact get_sub_not_ok_of_missing repo _ hnone fuel Dd hrec
  | step p hp hc hnb2 hdisc2 ih =>
    intro fuel D h
    rcases fuel with _ | fuel
    · cases h
    · rw [get_sub_dependencies, hp] at h
      obtain ⟨_, h2, _⟩ := subDepsFold_ok _ p.deps p.deps D h
      obtain ⟨Dd, hrec, _⟩ := h2 _ hc hnb2
      exact ih hnb hnone fuel Dd hrec

/-! ### C8: idempotence of closure computation -/

theorem discovered_mem_of_closed (repo : Repo) (S : List String)
    (hclosed : ∀ s ∈ S, s ∉ R_INCLUDED → ∀ d ∈ repoDeps repo s, d ∈ S)
    {a y : String} (hd : Discovered repo a y) :
    a ∈ S → a ∉ R_INCLUDED → y ∈ S := by
  induction hd with
  | direct p hp hb =>
    intro ha hanb
    refine hclosed _ ha hanb _ ?_
    rw [repoDeps, hp]
    exact hb
  | step p hp hc hnb hdisc ih =>
    intro ha hanb
    refine ih ?_ hnb
    refine hclosed _ ha hanb _ ?_
    rw [repoDeps, hp]
    exact hc

/-- C8: when a name set `S` is already closed under the built-in-truncated
dependency relation, uniting it with the sub-dependency set computed for any
of its non-built-in members returns `S` itself: no growth. -/
theorem c8_closure_idempotent (repo : Repo) (S : List String)
    (hclosed : ∀ s ∈ S, s ∉ R_INCLUDED → ∀ d ∈ repoDeps repo s, d ∈ S)
    (s : String) (hs : s ∈ S) (hnb : s ∉ R_INCLUDED) (fuel : Nat) (D : List String)
    (h : get_sub_dependencies repo fuel s = some (.ok D)) :
    listUnion S D = S := by
  have hsub : ∀ y ∈ D, y ∈ S := by
    intro y hy
    have hdisc := (get_sub_ok_iff repo fuel s D h y).mp hy
    exact discovered_mem_of_closed repo S hclosed hdisc hs hnb
  rw [listUnion]
  have hfil : D.filter (fun x => decide (x ∉ S)) = [] := by
    rw [List.filter_eq_nil_iff]
    intro x hx
    have hxS : x ∈ S := hsub x hx
    simp [hxS]
  rw [hfil, List.append_nil]

/-- Witness for C8 on a two-package index whose full name set is closed. -/
theorem c8_closure_idempotent_witness :
    (∀ s ∈ ["aa", "bb"], s ∉ R_INCLUDED →
      ∀ d ∈ repoDeps [("aa", ⟨"aa", "1", ["bb"]⟩), ("bb", ⟨"bb", "1", []⟩)] s,
        d ∈ ["aa", "bb"]) ∧
    get_sub_dependencies [("aa", ⟨"aa", "1", ["bb"]⟩), ("bb", ⟨"bb", "1", []⟩)] 2 "aa" =
      some (.ok ["bb"]) ∧
    listUnion ["aa", "bb"] ["bb"] = ["aa", "bb"] :=
  ⟨by decide, rfl,
    c8_closure_idempotent [("aa", ⟨"aa", "1", ["bb"]⟩), ("bb", ⟨"bb", "1", []⟩)]
      ["aa", "bb"] (by decide) "aa" (by decide) (by decide) 2 ["bb"] rfl⟩

/-! ### C3: unknown names are hard errors -/

theorem seedsFold_error (repo : Repo) (fuel : Nat) :
    ∀ (ss acc : List String) (e : PyError), seedsFold repo fuel acc ss = some (.error e) →
      ∃ s ∈ ss, get_sub_dependencies repo fuel s = some (.error e)
  | [], acc, e, h => by
    rw [seedsFold] at h
    injection h with h
    cases h
  | s :: ss, acc, e, h => by
    rw [seedsFold] at h
    rcases hrec : get_sub_dependencies repo fuel s with _ | re <;> rw [hrec] at h
    · cases h
    · rcases re with e2 | d
      · injection h with h
        injection h with h
        subst h
        exact ⟨s, List.mem_cons_self s ss, hrec⟩
      · obtain ⟨s2, hs2, hrest⟩ := seedsFold_error repo fuel ss (listUnion acc d) e h
        exact ⟨s2, List.mem_cons_of_mem s hs2, hrest⟩

theorem seedsFold_ok (repo : Repo) (fuel : Nat) :
    ∀ (ss acc P : List String), seedsFold repo fuel acc ss = some (.ok P) →
      (∀ y ∈ acc, y ∈ P) ∧
      (∀ s ∈ ss, ∃ Ds, get_sub_dependencies repo fuel s = some (.ok Ds) ∧
        ∀ y ∈ Ds, y ∈ P) ∧
      (∀ y ∈ P, y ∈ acc ∨ ∃ s ∈ ss, ∃ Ds,
        get_sub_dependencies repo fuel s = some (.ok Ds) ∧ y ∈ Ds)
  | [], acc, P, h => by
    rw [seedsFold] at h
    injection h with h
    injection h with h
    subst h
    exact ⟨fun y hy => hy, fun s hs => absurd hs (List.not_mem_nil s), fun y hy => Or.inl hy⟩
  | s :: ss, acc, P, h => by
    rw [seedsFold] at h
    rcases hrec : get_sub_dependencies repo fuel s with _ | re <;> rw [hrec] at h
    · cases h
    · rcases re with e2 | d
      · cases h
      · obtain ⟨h1, h2, h3⟩ := seedsFold_ok repo fuel ss (listUnion acc d) P h
        refine ⟨?_, ?_, ?_⟩
        · intro y hy
          exact h1 y (mem_listUnion.mpr (Or.inl hy))
        · intro s2 hs2
          rcases List.mem_cons.mp hs2 with rfl | hs2
          · exact ⟨d, hrec, fun y hy => h1 y (mem_listUnion.mpr (Or.inr hy))⟩
          · exact h2 s2 hs2
        · intro y hy
          rcases h3 y hy with hy2 | ⟨s2, hs2, hrest⟩
          · rcases mem_listUnion.mp hy2 with hy2 | hy2
            · exact Or.inl hy2
            · exact Or.inr ⟨s, List.mem_cons_self s ss, d, hrec, hy2⟩
          · exact Or.inr ⟨s2, List.mem_cons_of_mem s hs2, hrest⟩

/-- C3: if a seed name, or a non-built-in name discovered from a seed, has
no entry in the index, then whenever the run finishes it finishes with a
`KeyError` naming a package absent from the index — never with a build
list. -/
theorem c3_unknown_name_is_hard_error (fuel : Nat) (fileLines : List String) (repo : Repo)
    (n : String)
    (hmem : n ∈ fileLines.map pyStrip ∨
      (n ∉ R_INCLUDED ∧ ∃ s ∈ fileLines.map pyStrip, Discovered repo s n))
    (hnone : dictGet repo n = none)
    (r : Except PyError (List RPackage))
    (h : generate_full_dependency_list fuel fileLines repo = some r) :
    ∃ m, r = .error (.keyError m) ∧ dictGet repo m = none := by
  rw [generate_full_dependency_list] at h
  rcases hsf : seedsFold repo fuel ((fileLines.map pyStrip).dedup) (fileLines.map pyStrip)
    with _ | re <;> rw [hsf] at h
  · cases h
  · rcases re with e | pset
    · injection h with h
      subst h
      obtain ⟨s, _, herr⟩ := seedsFold_error repo fuel _ _ e hsf
      obtain ⟨m, rfl, hm⟩ := get_sub_error repo fuel s e herr
      exact ⟨m, rfl, hm⟩
    · exfalso
      obtain ⟨_, h2, _⟩ := seedsFold_ok repo fuel _ _ pset hsf
      rcases hmem with hmem | ⟨hnb, s, hs, hdisc⟩
      · obtain ⟨Ds, hok, _⟩ := h2 n hmem
        exact get_sub_not_ok_of_missing repo n hnone fuel Ds hok
      · obtain ⟨Ds, hok, _⟩ := h2 s hs
        exact get_sub_not_ok_of_discovered_missing repo hdisc hnb hnone fuel Ds hok

/-- Witness for C3: a seed absent from an empty index. -/
theorem c3_unknown_name_is_hard_error_witness :
    (("zz" : String) ∈ (["zz"] : List String).map pyStrip ∨
      ("zz" : String) ∉ R_INCLUDED ∧ ∃ s ∈ (["zz"] : List String).map pyStrip,
        Discovered ([] : Repo) s "zz") ∧
    dictGet ([] : Repo) "zz" = none ∧
    generate_full_dependency_list 1 ["zz"] ([] : Repo) =
      some (.error (.keyError "zz")) ∧
    ∃ m, (Except.error (PyError.keyError "zz") : Except PyError (List RPackage)) =
      .error (.keyError m) ∧ dictGet ([] : Repo) m = none :=
  ⟨Or.inl (by decide), rfl, rfl,
    c3_unknown_name_is_hard_error 1 ["zz"] [] "zz" (Or.inl (by decide)) rfl _ rfl⟩

/-! ### C10: blank seed lines become empty-name lookups -/

theorem pyStrip_all_ws (w : String) (hws : ∀ c ∈ w.data, isWsCh c = true) :
    pyStrip w = "" := by
  rw [pyStrip]
  have h1 : w.data.dropWhile (fun c => isWsCh c) = [] :=
    List.dropWhile_eq_nil_iff.mpr hws
  rw [h1]
  rfl

theorem seedsFold_append_error (repo : Repo) (fuel : Nat) :
    ∀ (ss1 : List String) (acc : List String),
      (∀ u ∈ ss1, ∃ S, get_sub_dependencies repo fuel u = some (.ok S)) →
      ∀ (s : String) (ss2 : List String) (e : PyError),
        get_sub_dependencies repo fuel s = some (.error e) →
        seedsFold repo fuel acc (ss1 ++ s :: ss2) = some (.error e)
  | [], acc, _, s, ss2, e, hs => by
    rw [List.nil_append, seedsFold, hs]
  | u :: ss1, acc, hok, s, ss2, e, hs => by
    obtain ⟨S, hS⟩ := hok u (List.mem_cons_self u ss1)
    rw [List.cons_append, seedsFold, hS]
    exact seedsFold_append_error repo fuel ss1 (listUnion acc S)
      (fun u2 hu2 => hok u2 (List.mem_cons_of_mem u hu2)) s ss2 e hs

/-- C10: a whitespace-only seed line is stripped to the empty string, which
is not skipped but looked up as a package name; when the index has no empty
name and the earlier seed lines resolve, the run fails with a `KeyError`
naming the empty string. -/
theorem c10_blank_seed_line (fuel : Nat) (pre post : List String) (w : String)
    (repo : Repo)
    (hws : ∀ c ∈ w.data, isWsCh c = true)
    (hnone : dictGet repo "" = none)
    (hpre : ∀ u ∈ pre, ∃ S,
      get_sub_dependencies repo (fuel + 1) (pyStrip u) = some (.ok S)) :
    pyStrip w = "" ∧
    generate_full_dependency_list (fuel + 1) (pre ++ w :: post) repo =
      some (.error (.keyError "")) := by
  have hw : pyStrip w = "" := pyStrip_all_ws w hws
  refine ⟨hw, ?_⟩
  rw [generate_full_dependency_list, List.map_append, List.map_cons, hw]
  have hempty : get_sub_dependencies repo (fuel + 1) "" = some (.error (.keyError "")) :=
    get_sub_missing repo fuel "" hnone
  have hok : ∀ u ∈ pre.map pyStrip, ∃ S,
      get_sub_dependencies repo (fuel + 1) u = some (.ok S) := by
    intro u hu
    obtain ⟨u0, hu0, rfl⟩ := List.mem_map.mp hu
    exact hpre u0 hu0
  rw [seedsFold_append_error repo (fuel + 1) (pre.map pyStrip) _ hok "" (post.map pyStrip)
    (.keyError "") hempty]

/-- Witness for C10: a resolvable seed followed by a whitespace-only line. -/
theorem c10_blank_seed_line_witness :
    (∀ c ∈ (" " : String).data, isWsCh c = true) ∧
    dictGet ([("aa", ⟨"aa", "1", []⟩)] : Repo) "" = none ∧
    (pyStrip " " = "" ∧
      generate_full_dependency_list 2 (["aa"] ++ " " :: []) [("aa", ⟨"aa", "1", []⟩)] =
        some (.error (.keyError ""))) :=
  ⟨by decide, rfl,
    c10_blank_seed_line 1 ["aa"] [] " " [("aa", ⟨"aa", "1", []⟩)] (by decide) rfl
      (fun u hu => ⟨[], by rw [List.mem_singleton.mp hu]; rfl⟩)⟩

/-! ### C2: built-ins never reach the build list -/

theorem dictGet_mem {α β : Type} [DecidableEq α] {l : List (α × β)} {k : α} {p : β}
    (h : dictGet l k = some p) : (k, p) ∈ l := by
  rw [dictGet] at h
  obtain ⟨q, hq, hq2⟩ := Option.map_eq_some'.mp h
  have hk : q.1 = k := by
    have := List.find?_some hq
    simpa using this
  have hmem : q ∈ l := List.mem_reverse.mp (List.mem_of_find?_eq_some hq)
  have hqk : q = (k, p) := by
    rw [Prod.ext_iff]
    exact ⟨hk, hq2⟩
  rw [← hqk]
  exact hmem

/-- An index keyed by each record's own name (as `_parse_repo_package_list`
builds it) satisfies the key/name agreement used below. -/
theorem repoKeyed_of_entries (repo : Repo) (h : ∀ kp ∈ repo, kp.2.name = kp.1) :
    ∀ k p, dictGet repo k = some p → p.name = k := by
  intro k p hkp
  exact h (k, p) (dictGet_mem hkp)

theorem buildOut_ok (repo : Repo) :
    ∀ (ns : List String) (out : List RPackage), buildOut repo ns = .ok out →
      ∀ p ∈ out, ∃ n ∈ ns, n ∉ R_INCLUDED ∧ dictGet repo n = some p
  | [], out, h => by
    injection h with h
    subst h
    intro p hp
    cases hp
  | n :: ns, out, h => by
    rw [buildOut] at h
    by_cases hb : n ∈ R_INCLUDED
    · rw [if_pos hb] at h
      intro p hp
      obtain ⟨n2, hn2, hrest⟩ := buildOut_ok repo ns out h p hp
      exact ⟨n2, List.mem_cons_of_mem n hn2, hrest⟩
    · rw [if_neg hb] at h
      rcases hg : dictGet repo n with _ | q <;> rw [hg] at h
      · cases h
      · rcases hrest : buildOut repo ns with e | out2 <;> rw [hrest] at h
        · cases h
        · injection h with h
          subst h
          intro p hp
          rcases List.mem_cons.mp hp with rfl | hp
          · exact ⟨n, List.mem_cons_self n ns, hb, hg⟩
          · obtain ⟨n2, hn2, hr⟩ := buildOut_ok repo ns out2 hrest p hp
            exact ⟨n2, List.mem_cons_of_mem n hn2, hr⟩

/-- Decomposition of a successful run into its four stages. -/
theorem gen_ok_parts (fuel : Nat) (fileLines : List String) (repo : Repo)
    (out : List RPackage)
    (h : generate_full_dependency_list fuel fileLines repo = some (.ok out)) :
    ∃ pset pd sorted,
      seedsFold repo fuel ((fileLines.map pyStrip).dedup) (fileLines.map pyStrip) =
        some (.ok pset) ∧
      buildPkgsDict repo pset = .ok pd ∧
      toposort_flatten pd = .ok sorted ∧
      buildOut repo sorted = .ok out := by
  rw [generate_full_dependency_list] at h
  rcases hsf : seedsFold repo fuel ((fileLines.map pyStrip).dedup) (fileLines.map pyStrip)
    with _ | re <;> rw [hsf] at h
  · cases h
  · rcases re with e | pset
    · injection h with h
      cases h
    · injection h with h
      rcases hpd : buildPkgsDict repo pset with e | pd <;> simp only [hpd] at h
      · cases h
      · rcases hts : toposort_flatten pd with e | sorted <;> simp only [hts] at h
        · cases h
        · exact ⟨pset, pd, sorted, hsf ▸ rfl, hpd, hts, h⟩

/-- C2: when the run produces a build list, no record in it bears a name
from the built-in exclusion list, whatever was reachable from the seeds. -/
theorem c2_builtins_never_in_output (fuel : Nat) (fileLines : List String) (repo : Repo)
    (out : List RPackage)
    (hwf : ∀ k p, dictGet repo k = some p → p.name = k)
    (h : generate_full_dependency_list fuel fileLines repo = some (.ok out)) :
    ∀ p ∈ out, p.name ∉ R_INCLUDED := by
  obtain ⟨pset, pd, sorted, _, _, _, hbo⟩ := gen_ok_parts fuel fileLines repo out h
  intro p hp
  obtain ⟨n, _, hnb, hget⟩ := buildOut_ok repo sorted out hbo p hp
  rw [hwf n p hget]
  exact hnb

/-- Witness for C2 on the three-package example with a built-in dependency
(`base` is reachable from the seed but filtered from the output). -/
theorem c2_builtins_never_in_output_witness :
    (∀ kp ∈ ([("AX", ⟨"AX", "1", []⟩), ("BX", ⟨"BX", "2", ["AX"]⟩),
        ("C", ⟨"C", "3", ["BX", "base"]⟩)] : Repo), kp.2.name = kp.1) ∧
    generate_full_dependency_list 5 ["C"]
        [("AX", ⟨"AX", "1", []⟩), ("BX", ⟨"BX", "2", ["AX"]⟩),
          ("C", ⟨"C", "3", ["BX", "base"]⟩)] =
      some (.ok [⟨"AX", "1", []⟩, ⟨"BX", "2", ["AX"]⟩, ⟨"C", "3", ["BX", "base"]⟩]) ∧
    ∀ p ∈ [(⟨"AX", "1", []⟩ : RPackage), ⟨"BX", "2", ["AX"]⟩, ⟨"C", "3", ["BX", "base"]⟩],
      p.name ∉ R_INCLUDED :=
  ⟨by decide, rfl,
    c2_builtins_never_in_output 5 ["C"]
      [("AX", ⟨"AX", "1", []⟩), ("BX", ⟨"BX", "2", ["AX"]⟩),
        ("C", ⟨"C", "3", ["BX", "base"]⟩)]
      [⟨"AX", "1", []⟩, ⟨"BX", "2", ["AX"]⟩, ⟨"C", "3", ["BX", "base"]⟩]
      (repoKeyed_of_entries _ (by decide)) rfl⟩

/-! ### C4: termination and exactness of the closure computation -/

/-- One dependency edge of the index. -/
def DepEdge (repo : Repo) (a b : String) : Prop :=
  ∃ p, dictGet repo a = some p ∧ b ∈ p.deps

/-- A dependency edge between two non-built-in names. -/
def NBEdge (repo : Repo) (a b : String) : Prop :=
  a ∉ R_INCLUDED ∧ b ∉ R_INCLUDED ∧ DepEdge repo a b

/-- The dependency relation restricted to non-built-in names has no cycle. -/
def AcyclicNB (repo : Repo) : Prop := ∀ x, ¬ Relation.TransGen (NBEdge repo) x x

/-- Every non-built-in dependency of an indexed package is itself indexed. -/
def ClosedRepo (repo : Repo) : Prop :=
  ∀ k p, dictGet repo k = some p → ∀ d ∈ p.deps, d ∉ R_INCLUDED →
    ∃ q, dictGet repo d = some q

/-- The step of the unguarded recursion: an edge into a non-built-in name. -/
def Rstep (repo : Repo) (a b : String) : Prop := DepEdge repo a b ∧ b ∉ R_INCLUDED

theorem rstep_target_nb (repo : Repo) {a b : String}
    (h : Relation.TransGen (Rstep repo) a b) : b ∉ R_INCLUDED := by
  induction h with
  | single h1 => exact h1.2
  | tail _ h2 _ => exact h2.2

theorem transGen_NB (repo : Repo) {a b : String}
    (h : Relation.TransGen (Rstep repo) a b) (ha : a ∉ R_INCLUDED) :
    Relation.TransGen (NBEdge repo) a b := by
  induction h with
  | single h1 => exact Relation.TransGen.single ⟨ha, h1.2, h1.1⟩
  | tail h1 h2 ih => exact Relation.TransGen.tail ih ⟨rstep_target_nb repo h1, h2.2, h2.1⟩

theorem desc_decrease (repo : Repo) (hacyc : AcyclicNB repo) {x y : String}
    (hx : ∃ p, dictGet repo x = some p) (hstep : Rstep repo x y) :
    ({k | Relation.ReflTransGen (Rstep repo) y k ∧ ∃ p, dictGet repo k = some p}).ncard <
    ({k | Relation.ReflTransGen (Rstep repo) x k ∧ ∃ p, dictGet repo k = some p}).ncard := by
  have hkeys : {k | Relation.ReflTransGen (Rstep repo) x k ∧ ∃ p, dictGet repo k = some p} ⊆
      {k | k ∈ repo.map Prod.fst} := by
    rintro k ⟨_, p, hp⟩
    have hmem := dictGet_mem hp
    exact List.mem_map.mpr ⟨(k, p), hmem, rfl⟩
  have hfin : ({k | Relation.ReflTransGen (Rstep repo) x k ∧
      ∃ p, dictGet repo k = some p}).Finite :=
    Set.Finite.subset (List.finite_toSet (repo.map Prod.fst)) hkeys
  have hsub : {k | Relation.ReflTransGen (Rstep repo) y k ∧ ∃ p, dictGet repo k = some p} ⊆
      {k | Relation.ReflTransGen (Rstep repo) x k ∧ ∃ p, dictGet repo k = some p} := by
    rintro k ⟨hrt, hk⟩
    exact ⟨Relation.ReflTransGen.head hstep hrt, hk⟩
  have hxmem : x ∈ {k | Relation.ReflTransGen (Rstep repo) x k ∧
      ∃ p, dictGet repo k = some p} := ⟨Relation.ReflTransGen.refl, hx⟩
  have hxnot : x ∉ {k | Relation.ReflTransGen (Rstep repo) y k ∧
      ∃ p, dictGet repo k = some p} := by
    rintro ⟨hrt, _⟩
    rcases (Relation.reflTransGen_iff_eq_or_transGen.mp hrt) with heq | htg
    · have hxy : y = x := heq.symm
      have hcyc : Relation.TransGen (Rstep repo) x x := by
        refine Relation.TransGen.single ?_
        rw [← hxy] at hstep ⊢
        exact hstep
      exact hacyc x (transGen_NB repo hcyc (by rw [← hxy]; exact hstep.2))
    · have hcyc : Relation.TransGen (Rstep repo) x x := Relation.TransGen.head hstep htg
      exact hacyc x (transGen_NB repo hcyc (rstep_target_nb repo htg))
  have hss : {k | Relation.ReflTransGen (Rstep repo) y k ∧ ∃ p, dictGet repo k = some p} ⊂
      {k | Relation.ReflTransGen (Rstep repo) x k ∧ ∃ p, dictGet repo k = some p} := by
    rw [Set.ssubset_def]
    exact ⟨hsub, fun habs => hxnot (habs hxmem)⟩
  exact Set.ncard_lt_ncard hss hfin

theorem subDepsFold_mono (rec rec2 : String → Option (Except PyError (List String)))
    (hmono : ∀ d r, rec d = some r → rec2 d = some r) :
    ∀ (ds acc : List String) (r : Except PyError (List String)),
      subDepsFold rec acc ds = some r → subDepsFold rec2 acc ds = some r
  | [], acc, r, h => h
  | d :: ds, acc, r, h => by
    rw [subDepsFold] at h
    rw [subDepsFold]
    by_cases hb : d ∈ R_INCLUDED
    · rw [if_pos hb] at h
      rw [if_pos hb]
      exact subDepsFold_mono rec rec2 hmono ds acc r h
    · rw [if_neg hb] at h
      rw [if_neg hb]
      rcases hrec : rec d with _ | re <;> rw [hrec] at h
      · cases h
      · rw [hmono d re hrec]
        rcases re with e | s
        · exact h
        · exact subDepsFold_mono rec rec2 hmono ds (listUnion acc s) r h

theorem get_sub_mono (repo : Repo) :
    ∀ (fuel fuel2 : Nat) (name : String) (r : Except PyError (List String)),
      fuel ≤ fuel2 → get_sub_dependencies repo fuel name = some r →
      get_sub_dependencies repo fuel2 name = some r
  | 0, _, _, _, _, h => by cases h
  | fuel + 1, fuel2 + 1, name, r, hle, h => by
    rw [get_sub_dependencies] at h
    rw [get_sub_dependencies]
    rcases hp : dictGet repo name with _ | p <;> rw [hp] at h
    · exact h
    · exact subDepsFold_mono _ _
        (fun d r2 h2 => get_sub_mono repo fuel fuel2 d r2 (Nat.le_of_succ_le_succ hle) h2)
        p.deps p.deps r h
  | fuel + 1, 0, name, r, hle, h => by
    cases hle

theorem subDepsFold_total (rec : String → Option (Except PyError (List String))) :
    ∀ (ds acc : List String),
      (∀ d ∈ ds, d ∉ R_INCLUDED → ∃ Dd, rec d = some (.ok Dd)) →
      ∃ D, subDepsFold rec acc ds = some (.ok D)
  | [], acc, _ => ⟨acc, rfl⟩
  | d :: ds, acc, h => by
    rw [subDepsFold]
    by_cases hb : d ∈ R_INCLUDED
    · rw [if_pos hb]
      exact subDepsFold_total rec ds acc (fun d2 hd2 => h d2 (List.mem_cons_of_mem d hd2))
    · rw [if_neg hb]
      obtain ⟨Dd, hDd⟩ := h d (List.mem_cons_self d ds) hb
      rw [hDd]
      exact subDepsFold_total rec ds (listUnion acc Dd)
        (fun d2 hd2 => h d2 (List.mem_cons_of_mem d hd2))

theorem exists_uniform_fuel (repo : Repo) :
    ∀ ds : List String,
      (∀ d ∈ ds, d ∉ R_INCLUDED →
        ∃ fuel D, get_sub_dependencies repo fuel d = some (.ok D)) →
      ∃ F, ∀ d ∈ ds, d ∉ R_INCLUDED →
        ∃ D, get_sub_dependencies repo F d = some (.ok D)
  | [], _ => ⟨0, fun d hd => absurd hd (List.not_mem_nil d)⟩
  | d :: ds, h => by
    obtain ⟨F, hF⟩ := exists_uniform_fuel repo ds
      (fun d2 hd2 => h d2 (List.mem_cons_of_mem d hd2))
    by_cases hb : d ∈ R_INCLUDED
    · refine ⟨F, fun d2 hd2 hnb2 => ?_⟩
      rcases List.mem_cons.mp hd2 with rfl | hd2
      · exact absurd hb hnb2
      · exact hF d2 hd2 hnb2
    · obtain ⟨Fd, Dd, hDd⟩ := h d (List.mem_cons_self d ds) hb
      refine ⟨max Fd F, fun d2 hd2 hnb2 => ?_⟩
      rcases List.mem_cons.mp hd2 with rfl | hd2
      · exact ⟨Dd, get_sub_mono repo Fd (max Fd F) d2 _ (Nat.le_max_left Fd F) hDd⟩
      · obtain ⟨D2, hD2⟩ := hF d2 hd2 hnb2
        exact ⟨D2, get_sub_mono repo F (max Fd F) d2 _ (Nat.le_max_right Fd F) hD2⟩

theorem get_sub_terminates_aux (repo : Repo) (hclosed : ClosedRepo repo)
    (hacyc : AcyclicNB repo) :
    ∀ n x, (∃ p, dictGet repo x = some p) →
      ({k | Relation.ReflTransGen (Rstep repo) x k ∧
        ∃ p, dictGet repo k = some p}).ncard ≤ n →
      ∃ fuel D, get_sub_dependencies repo fuel x = some (.ok D) := by
  intro n
  induction n using Nat.strong_induction_on with
  | _ n ih =>
    intro x hx hcard
    obtain ⟨p, hp⟩ := hx
    have hdeps : ∀ d ∈ p.deps, d ∉ R_INCLUDED →
        ∃ fuel D, get_sub_dependencies repo fuel d = some (.ok D) := by
      intro d hd hnb
      have hstep : Rstep repo x d := ⟨⟨p, hp, hd⟩, hnb⟩
      have hdkey : ∃ q, dictGet repo d = some q := hclosed x p hp d hd hnb
      have hlt := desc_decrease repo hacyc ⟨p, hp⟩ hstep
      have hcard2 : ({k | Relation.ReflTransGen (Rstep repo) d k ∧
          ∃ p, dictGet repo k = some p}).ncard < n := Nat.lt_of_lt_of_le hlt hcard
      exact ih _ hcard2 d hdkey (Nat.le_refl _)
    obtain ⟨F, hF⟩ := exists_uniform_fuel repo p.deps hdeps
    obtain ⟨D, hD⟩ := subDepsFold_total (fun d => get_sub_dependencies repo F d)
      p.deps p.deps hF
    refine ⟨F + 1, D, ?_⟩
    rw [get_sub_dependencies, hp]
    exact hD

/-- Under a dependency-closed index with no non-built-in cycle, the closure
call terminates on every indexed name and computes the discovered set. -/
theorem get_sub_terminates (repo : Repo) (hclosed : ClosedRepo repo)
    (hacyc : AcyclicNB repo) (name : String) (hname : ∃ p, dictGet repo name = some p) :
    ∃ fuel D, get_sub_dependencies repo fuel name = some (.ok D) ∧
      ∀ y, y ∈ D ↔ Discovered repo name y := by
  obtain ⟨fuel, D, hD⟩ := get_sub_terminates_aux repo hclosed hacyc
    (({k | Relation.ReflTransGen (Rstep repo) name k ∧
      ∃ p, dictGet repo k = some p}).ncard) name hname (Nat.le_refl _)
  exact ⟨fuel, D, hD, get_sub_ok_iff repo fuel name D hD⟩

theorem acyclic_of_measure (repo : Repo) (meas : String → Nat)
    (h : ∀ a b, NBEdge repo a b → meas b < meas a) : AcyclicNB repo := by
  have hall : ∀ a b, Relation.TransGen (NBEdge repo) a b → meas b < meas a := by
    intro a b htg
    induction htg with
    | single h1 => exact h _ _ h1
    | tail _ h2 ih => exact Nat.lt_trans (h _ _ h2) ih
  intro x hx
  exact Nat.lt_irrefl _ (hall x x hx)

theorem closedRepo_of_entries (repo : Repo)
    (h : ∀ kp ∈ repo, ∀ d ∈ kp.2.deps, d ∉ R_INCLUDED → (dictGet repo d).isSome = true) :
    ClosedRepo repo := by
  intro k p hkp d hd hnb
  have hs := h (k, p) (dictGet_mem hkp) d hd hnb
  exact Option.isSome_iff_exists.mp hs

/-- C4 counterexample: the index `{A ↦ deps {B}}` with `B` unindexed is
finite and has no non-built-in cycle, yet `_get_sub_dependencies` never
returns the reachable set `{B}` for the indexed name `A` — it raises
`KeyError` instead. -/
theorem c4_counterexample :
    AcyclicNB ([("A", ⟨"A", "1", ["B"]⟩)] : Repo) ∧
    dictGet ([("A", ⟨"A", "1", ["B"]⟩)] : Repo) "A" = some ⟨"A", "1", ["B"]⟩ ∧
    Discovered ([("A", ⟨"A", "1", ["B"]⟩)] : Repo) "A" "B" ∧
    (∀ fuel D, get_sub_dependencies ([("A", ⟨"A", "1", ["B"]⟩)] : Repo) fuel "A" ≠
      some (.ok D)) ∧
    get_sub_dependencies ([("A", ⟨"A", "1", ["B"]⟩)] : Repo) 2 "A" =
      some (.error (.keyError "B")) := by
  have hacyc : AcyclicNB ([("A", ⟨"A", "1", ["B"]⟩)] : Repo) := by
    refine acyclic_of_measure _ (fun s => if s = "A" then 1 else 0) ?_
    rintro a b ⟨hanb, hbnb, p, hget, hmemd⟩
    have hmem := dictGet_mem hget
    rcases List.mem_singleton.mp hmem with heq
    have ha : a = "A" := congrArg Prod.fst heq
    have hp : p = ⟨"A", "1", ["B"]⟩ := congrArg Prod.snd heq
    subst ha
    rw [hp] at hmemd
    rcases List.mem_singleton.mp hmemd with rfl
    decide
  have hdisc : Discovered ([("A", ⟨"A", "1", ["B"]⟩)] : Repo) "A" "B" :=
    Discovered.direct ⟨"A", "1", ["B"]⟩ rfl (List.mem_singleton.mpr rfl)
  refine ⟨hacyc, rfl, hdisc, ?_, rfl⟩
  intro fuel D
  exact get_sub_not_ok_of_discovered_missing _ hdisc (by decide) rfl fuel D

/-- C4 amended: adding the hypothesis (missing from the claim) that the
index is dependency closed — every non-built-in dependency of an indexed
package is itself indexed — the computation terminates for every indexed
name and returns exactly the set of names reachable via dependency edges,
truncated at built-ins (they are included but not expanded). -/
theorem c4_amended_closure_terminates (repo : Repo) (hclosed : ClosedRepo repo)
    (hacyc : AcyclicNB repo) (name : String) (p0 : RPackage)
    (hname : dictGet repo name = some p0) :
    ∃ fuel D, get_sub_dependencies repo fuel name = some (.ok D) ∧
      ∀ y, y ∈ D ↔ Discovered repo name y :=
  get_sub_terminates repo hclosed hacyc name ⟨p0, hname⟩

/-- Witness for the amended C4 on a closed acyclic two-package index with a
built-in dependency. -/
theorem c4_amended_closure_terminates_witness :
    ClosedRepo [("aa", ⟨"aa", "1", ["bb", "base"]⟩), ("bb", ⟨"bb", "1", []⟩)] ∧
    AcyclicNB [("aa", ⟨"aa", "1", ["bb", "base"]⟩), ("bb", ⟨"bb", "1", []⟩)] ∧
    (∃ fuel D,
      get_sub_dependencies [("aa", ⟨"aa", "1", ["bb", "base"]⟩), ("bb", ⟨"bb", "1", []⟩)]
        fuel "aa" = some (.ok D) ∧
      ∀ y, y ∈ D ↔
        Discovered [("aa", ⟨"aa", "1", ["bb", "base"]⟩), ("bb", ⟨"bb", "1", []⟩)] "aa" y) := by
  have hclosed : ClosedRepo [("aa", ⟨"aa", "1", ["bb", "base"]⟩), ("bb", ⟨"bb", "1", []⟩)] :=
    closedRepo_of_entries _ (by decide)
  have hacyc : AcyclicNB [("aa", ⟨"aa", "1", ["bb", "base"]⟩), ("bb", ⟨"bb", "1", []⟩)] := by
    refine acyclic_of_measure _ (fun s => if s = "aa" then 1 else 0) ?_
    rintro a b ⟨hanb, hbnb, p, hget, hmemd⟩
    have hmem := dictGet_mem hget
    rcases List.mem_cons.mp hmem with heq | hmem2
    · have ha : a = "aa" := congrArg Prod.fst heq
      have hp : p = ⟨"aa", "1", ["bb", "base"]⟩ := congrArg Prod.snd heq
      subst ha
      rw [hp] at hmemd
      rcases List.mem_cons.mp hmemd with rfl | hmemd2
      · decide
      · rcases List.mem_singleton.mp hmemd2 with rfl
        exact absurd (by decide : ("base" : String) ∈ R_INCLUDED) hbnb
    · rcases List.mem_singleton.mp hmem2 with heq
      have ha : a = "bb" := congrArg Prod.fst heq
      have hp : p = ⟨"bb", "1", []⟩ := congrArg Prod.snd heq
      rw [hp] at hmemd
      cases hmemd
  exact ⟨hclosed, hacyc,
    c4_amended_closure_terminates _ hclosed hacyc "aa" ⟨"aa", "1", ["bb", "base"]⟩ rfl⟩

/-! ### C1: the output respects dependency precedence -/

theorem insSorted_perm (x : String) : ∀ l : List String, (insSorted x l).Perm (x :: l)
  | [] => List.Perm.refl _
  | y :: ys => by
    rw [insSorted]
    by_cases h : strLt y x = true
    · rw [if_pos h]
      exact ((insSorted_perm x ys).cons y).trans (List.Perm.swap x y ys)
    · rw [if_neg h]

theorem sortStrs_perm : ∀ l : List String, (sortStrs l).Perm l
  | [] => List.Perm.refl _
  | a :: l => by
    rw [sortStrs, List.foldr_cons]
    exact (insSorted_perm a (l.foldr insSorted [])).trans ((sortStrs_perm l).cons a)

theorem mem_sortStrs {x : String} {l : List String} : x ∈ sortStrs l ↔ x ∈ l :=
  (sortStrs_perm l).mem_iff

theorem nodup_sortStrs {l : List String} (h : l.Nodup) : (sortStrs l).Nodup :=
  ((sortStrs_perm l).nodup_iff).mpr h

theorem map_fst_filter_key (p : String → Bool) :
    ∀ data : List (String × List String),
      (data.filter fun kv => p kv.1).map Prod.fst = (data.map Prod.fst).filter p
  | [] => rfl
  | kv :: data => by
    rw [List.filter_cons, List.map_cons, List.filter_cons]
    by_cases h : p kv.1 = true
    · rw [if_pos h, if_pos h, List.map_cons, map_fst_filter_key p data]
    · rw [if_neg h, if_neg h, map_fst_filter_key p data]

theorem key_unique : ∀ {data : List (String × List String)},
    (data.map Prod.fst).Nodup →
    ∀ {kv kv2 : String × List String}, kv ∈ data → kv2 ∈ data → kv.1 = kv2.1 → kv = kv2 := by
  intro data
  induction data with
  | nil => intro _ kv kv2 h1; cases h1
  | cons e rest ih =>
    intro hnd kv kv2 h1 h2 heq
    rw [List.map_cons, List.nodup_cons] at hnd
    rcases List.mem_cons.mp h1 with he1 | h1n
    · rcases List.mem_cons.mp h2 with he2 | h2n
      · rw [he1, he2]
      · exfalso
        apply hnd.1
        rw [← he1, heq]
        exact List.mem_map.mpr ⟨kv2, h2n, rfl⟩
    · rcases List.mem_cons.mp h2 with he2 | h2n
      · exfalso
        apply hnd.1
        rw [← he2, ← heq]
        exact List.mem_map.mpr ⟨kv, h1n, rfl⟩
      · exact ih hnd.2 h1n h2n heq

theorem roundBatch_sub (data : List (String × List String)) :
    ∀ k ∈ roundBatch data, k ∈ data.map Prod.fst := by
  intro k hk
  obtain ⟨kv, hkv, rfl⟩ := List.mem_map.mp hk
  exact List.mem_map.mpr ⟨kv, List.mem_of_mem_filter hkv, rfl⟩

theorem roundBatch_nodup {data : List (String × List String)}
    (hnd : (data.map Prod.fst).Nodup) : (roundBatch data).Nodup :=
  List.Nodup.sublist (List.Sublist.map Prod.fst (List.filter_sublist data)) hnd

theorem roundNext_keys (data : List (String × List String)) :
    (roundNext data).map Prod.fst =
      (data.map Prod.fst).filter fun k => decide (k ∉ roundBatch data) := by
  rw [roundNext, List.map_map]
  exact map_fst_filter_key (fun k => decide (k ∉ roundBatch data)) data

theorem rounds_ordering :
    ∀ (fuel : Nat) (data : List (String × List String)) (bs : List (List String)),
      toposortRounds fuel data = some (bs, []) →
      (data.map Prod.fst).Nodup →
      (∀ kv ∈ data, ∀ d ∈ kv.2, d ∈ data.map Prod.fst) →
      (∀ kv ∈ data, kv.1 ∉ kv.2) →
      (∀ k ∈ data.map Prod.fst, k ∈ bs.flatMap sortStrs) ∧
      (bs.flatMap sortStrs).Nodup ∧
      (∀ x ∈ bs.flatMap sortStrs, x ∈ data.map Prod.fst) ∧
      (∀ kv ∈ data, ∀ d ∈ kv.2, ∃ l1 l2 l3,
        bs.flatMap sortStrs = l1 ++ d :: l2 ++ kv.1 :: l3)
  | 0, data, bs, h, _, _, _ => by cases h
  | fuel + 1, data, bs, h, hnd, hI1, hI3 => by
    rw [toposortRounds] at h
    by_cases hord : roundBatch data = []
    · rw [if_pos hord] at h
      injection h with h
      injection h with hbs hdata
      subst hdata
      rw [← hbs]
      refine ⟨?_, ?_, ?_, ?_⟩
      · intro k hk
        cases hk
      · exact List.nodup_nil
      · intro x hx
        cases hx
      · intro kv hkv
        cases hkv
    · rw [if_neg hord] at h
      rcases hrec : toposortRounds fuel (roundNext data) with _ | pr <;> rw [hrec] at h
      · cases h
      · rcases pr with ⟨bs2, rest⟩
        injection h with h
        injection h with hbs hrest
        subst hrest
        rw [← hbs]
        have hnd2 : ((roundNext data).map Prod.fst).Nodup := by
          rw [roundNext_keys]
          exact List.Nodup.filter _ hnd
        have hI1n : ∀ kv ∈ roundNext data, ∀ d ∈ kv.2, d ∈ (roundNext data).map Prod.fst := by
          intro kv2 hkv2 d hd
          obtain ⟨kv, hkvf, rfl⟩ := List.mem_map.mp hkv2
          have hkvd := List.mem_of_mem_filter hkvf
          have hd2 := List.mem_filter.mp hd
          rw [roundNext_keys]
          refine List.mem_filter.mpr ⟨?_, hd2.2⟩
          exact hI1 kv hkvd d hd2.1
        have hI3n : ∀ kv ∈ roundNext data, kv.1 ∉ kv.2 := by
          intro kv2 hkv2 hself
          obtain ⟨kv, hkvf, rfl⟩ := List.mem_map.mp hkv2
          exact hI3 kv (List.mem_of_mem_filter hkvf) (List.mem_of_mem_filter hself)
        obtain ⟨ihAll, ihNodup, ihSub, ihOrd⟩ :=
          rounds_ordering fuel (roundNext data) bs2 hrec hnd2 hI1n hI3n
        rw [List.flatMap_cons]
        refine ⟨?_, ?_, ?_, ?_⟩
        · intro k hk
          by_cases hkb : k ∈ roundBatch data
          · exact List.mem_append_left _ (mem_sortStrs.mpr hkb)
          · refine List.mem_append_right _ (ihAll k ?_)
            rw [roundNext_keys]
            exact List.mem_filter.mpr ⟨hk, by simpa using hkb⟩
        · refine List.Nodup.append (nodup_sortStrs (roundBatch_nodup hnd)) ihNodup ?_
          intro x hx1 hx2
          have hxb : x ∈ roundBatch data := mem_sortStrs.mp hx1
          have hxn := ihSub x hx2
          rw [roundNext_keys] at hxn
          have := (List.mem_filter.mp hxn).2
          simp only [decide_eq_true_eq] at this
          exact this hxb
        · intro x hx
          rcases List.mem_append.mp hx with hx | hx
          · exact roundBatch_sub data x (mem_sortStrs.mp hx)
          · have hxn := ihSub x hx
            rw [roundNext_keys] at hxn
            exact List.mem_of_mem_filter hxn
        · intro kv hkv d hd
          have hkne : kv.1 ∉ roundBatch data := by
            intro hkin
            obtain ⟨kv0, hkv0f, heq0⟩ := List.mem_map.mp hkin
            have hkv0 := List.mem_of_mem_filter hkv0f
            have hkv02 : kv0.2 = [] := by
              have := (List.mem_filter.mp hkv0f).2
              simpa using this
            have heq2 : kv = kv0 := key_unique hnd hkv hkv0 heq0.symm
            rw [heq2, hkv02] at hd
            cases hd
          have hknext : (kv.1, kv.2.filter fun d2 => decide (d2 ∉ roundBatch data)) ∈
              roundNext data := by
            refine List.mem_map.mpr ⟨kv, ?_, rfl⟩
            exact List.mem_filter.mpr ⟨hkv, by simpa using hkne⟩
          by_cases hdb : d ∈ roundBatch data
          · obtain ⟨s1, s2, hsplit1⟩ := List.append_of_mem (mem_sortStrs.mpr hdb)
            have hkout : kv.1 ∈ bs2.flatMap sortStrs := by
              refine ihAll kv.1 ?_
              exact List.mem_map.mpr ⟨_, hknext, rfl⟩
            obtain ⟨t1, t2, hsplit2⟩ := List.append_of_mem hkout
            refine ⟨s1, s2 ++ t1, t2, ?_⟩
            rw [hsplit1, hsplit2]
            simp [List.append_assoc]
          · have hdnext : d ∈ (kv.1, kv.2.filter
                fun d2 => decide (d2 ∉ roundBatch data)).2 := by
              exact List.mem_filter.mpr ⟨hd, by simpa using hdb⟩
            obtain ⟨l1, l2, l3, hsplit⟩ := ihOrd _ hknext d hdnext
            refine ⟨sortStrs (roundBatch data) ++ l1, l2, l3, ?_⟩
            rw [hsplit]
            simp [List.append_assoc]

theorem toposort_flatten_ok (data : List (String × List String)) (sorted : List String)
    (h : toposort_flatten data = .ok sorted) :
    ∃ bs, toposortRounds ((toposortPrep data).length + 1) (toposortPrep data) =
        some (bs, []) ∧ sorted = bs.flatMap sortStrs := by
  rw [toposort_flatten] at h
  rcases hr : toposortRounds ((toposortPrep data).length + 1) (toposortPrep data)
    with _ | pr <;> simp only [hr] at h
  · cases h
  · rcases pr with ⟨bs, leftover⟩
    by_cases hl : leftover = []
    · rw [if_pos hl] at h
      injection h with h
      subst hl
      exact ⟨bs, rfl, h.symm⟩
    · rw [if_neg hl] at h
      cases h

theorem prep_keys (data : List (String × List String)) :
    (toposortPrep data).map Prod.fst = data.map Prod.fst ++ extrasOf data := by
  have hA : (selfFree data).map Prod.fst = data.map Prod.fst := by
    rw [selfFree, List.map_map]
    rfl
  have hB : ((extrasOf data).map fun e => (e, ([] : List String))).map Prod.fst =
      extrasOf data := by
    rw [List.map_map]
    have h2 : (Prod.fst ∘ fun e : String => (e, ([] : List String))) = id := rfl
    rw [h2, List.map_id]
  rw [toposortPrep, List.map_append, hA, hB]

theorem prep_nodup {data : List (String × List String)}
    (hnd : (data.map Prod.fst).Nodup) : ((toposortPrep data).map Prod.fst).Nodup := by
  rw [prep_keys]
  refine List.Nodup.append hnd (List.nodup_dedup _) ?_
  intro x hx hx2
  rw [extrasOf, List.mem_dedup] at hx2
  have := (List.mem_filter.mp hx2).2
  simp only [decide_eq_true_eq] at this
  exact this hx

theorem prep_I1 (data : List (String × List String)) :
    ∀ kv ∈ toposortPrep data, ∀ d ∈ kv.2, d ∈ (toposortPrep data).map Prod.fst := by
  intro kv hkv d hd
  rw [prep_keys]
  rw [toposortPrep] at hkv
  rcases List.mem_append.mp hkv with hkv | hkv
  · by_cases hk : d ∈ data.map Prod.fst
    · exact List.mem_append_left _ hk
    · refine List.mem_append_right _ ?_
      rw [extrasOf, List.mem_dedup]
      refine List.mem_filter.mpr ⟨?_, by simpa using hk⟩
      exact List.mem_flatMap.mpr ⟨kv, hkv, hd⟩
  · obtain ⟨e, _, rfl⟩ := List.mem_map.mp hkv
    cases hd

theorem prep_I3 (data : List (String × List String)) :
    ∀ kv ∈ toposortPrep data, kv.1 ∉ kv.2 := by
  intro kv hkv hself
  rw [toposortPrep] at hkv
  rcases List.mem_append.mp hkv with hkv | hkv
  · obtain ⟨kv0, _, rfl⟩ := List.mem_map.mp hkv
    have := (List.mem_filter.mp hself).2
    simp at this
  · obtain ⟨e, _, rfl⟩ := List.mem_map.mp hkv
    cases hself

theorem buildPkgsDict_ok (repo : Repo) :
    ∀ (ns : List String) (pd : List (String × List String)),
      buildPkgsDict repo ns = .ok pd →
      (pd.map Prod.fst = ns.filter fun n => decide (n ∉ R_INCLUDED)) ∧
      (∀ kv ∈ pd, ∃ p, dictGet repo kv.1 = some p ∧ kv.2 = p.deps)
  | [], pd, h => by
    injection h with h
    subst h
    exact ⟨rfl, fun kv hkv => absurd hkv (List.not_mem_nil kv)⟩
  | n :: ns, pd, h => by
    rw [buildPkgsDict] at h
    by_cases hb : n ∈ R_INCLUDED
    · rw [if_pos hb] at h
      obtain ⟨h1, h2⟩ := buildPkgsDict_ok repo ns pd h
      refine ⟨?_, h2⟩
      have hdec : decide (n ∉ R_INCLUDED) = false := by simpa using hb
      rw [List.filter_cons, hdec, h1]
      simp
    · rw [if_neg hb] at h
      rcases hg : dictGet repo n with _ | p <;> rw [hg] at h
      · cases h
      · rcases hrest : buildPkgsDict repo ns with e | pd2 <;> rw [hrest] at h
        · cases h
        · injection h with h
          subst h
          obtain ⟨h1, h2⟩ := buildPkgsDict_ok repo ns pd2 hrest
          constructor
          · have hdec : decide (n ∉ R_INCLUDED) = true := by simpa using hb
            rw [List.map_cons, List.filter_cons, hdec, h1]
            simp
          · intro kv hkv
            rcases List.mem_cons.mp hkv with rfl | hkv
            · exact ⟨p, hg, rfl⟩
            · exact h2 kv hkv

theorem buildOut_ok_get (repo : Repo) :
    ∀ (ns : List String) (out : List RPackage), buildOut repo ns = .ok out →
      ((ns.filter fun n => decide (n ∉ R_INCLUDED)).length = out.length) ∧
      ∀ i, i < out.length → ∃ n p,
        (ns.filter fun n2 => decide (n2 ∉ R_INCLUDED))[i]? = some n ∧
        out[i]? = some p ∧ dictGet repo n = some p
  | [], out, h => by
    injection h with h
    subst h
    exact ⟨rfl, fun i hi => absurd hi (Nat.not_lt_zero i)⟩
  | n :: ns, out, h => by
    rw [buildOut] at h
    by_cases hb : n ∈ R_INCLUDED
    · rw [if_pos hb] at h
      obtain ⟨h1, h2⟩ := buildOut_ok_get repo ns out h
      have hdec : decide (n ∉ R_INCLUDED) = false := by simpa using hb
      rw [List.filter_cons, hdec]
      simp only [Bool.false_eq_true, if_false]
      exact ⟨h1, h2⟩
    · rw [if_neg hb] at h
      rcases hg : dictGet repo n with _ | p <;> rw [hg] at h
      · cases h
      · rcases hrest : buildOut repo ns with e | out2 <;> rw [hrest] at h
        · cases h
        · injection h with h
          subst h
          obtain ⟨h1, h2⟩ := buildOut_ok_get repo ns out2 hrest
          have hdec : decide (n ∉ R_INCLUDED) = true := by simpa using hb
          rw [List.filter_cons, hdec]
          simp only [if_true]
          constructor
          · rw [List.length_cons, List.length_cons, h1]
          · intro i hi
            rcases i with _ | i
            · exact ⟨n, p, List.getElem?_cons_zero, List.getElem?_cons_zero, hg⟩
            · obtain ⟨n2, p2, hn2, hp2, hg2⟩ := h2 i (Nat.lt_of_succ_lt_succ hi)
              refine ⟨n2, p2, ?_, ?_, hg2⟩
              · rw [List.getElem?_cons_succ]
                exact hn2
              · rw [List.getElem?_cons_succ]
                exact hp2

theorem listUnion_nodup {a b : List String} (ha : a.Nodup) (hb : b.Nodup) :
    (listUnion a b).Nodup := by
  rw [listUnion]
  refine List.Nodup.append ha (List.Nodup.filter _ hb) ?_
  intro x hx hx2
  have := (List.mem_filter.mp hx2).2
  simp only [decide_eq_true_eq] at this
  exact this hx

theorem subDepsFold_nodup (rec : String → Option (Except PyError (List String)))
    (hrec : ∀ d D, rec d = some (.ok D) → D.Nodup) :
    ∀ (ds acc D : List String), acc.Nodup →
      subDepsFold rec acc ds = some (.ok D) → D.Nodup
  | [], acc, D, hacc, h => by
    injection h with h
    injection h with h
    subst h
    exact hacc
  | d :: ds, acc, D, hacc, h => by
    rw [subDepsFold] at h
    by_cases hb : d ∈ R_INCLUDED
    · rw [if_pos hb] at h
      exact subDepsFold_nodup rec hrec ds acc D hacc h
    · rw [if_neg hb] at h
      rcases hr : rec d with _ | re <;> rw [hr] at h
      · cases h
      · rcases re with e | s
        · cases h
        · exact subDepsFold_nodup rec hrec ds (listUnion acc s) D
            (listUnion_nodup hacc (hrec d s hr)) h

theorem get_sub_nodup (repo : Repo)
    (hdn : ∀ k p, dictGet repo k = some p → p.deps.Nodup) :
    ∀ (fuel : Nat) (name : String) (D : List String),
      get_sub_dependencies repo fuel name = some (.ok D) → D.Nodup
  | 0, name, D, h => by cases h
  | fuel + 1, name, D, h => by
    rw [get_sub_dependencies] at h
    rcases hp : dictGet repo name with _ | p <;> rw [hp] at h
    · injection h with h
      cases h
    · exact subDepsFold_nodup _ (fun d Dd hr => get_sub_nodup repo hdn fuel d Dd hr)
        p.deps p.deps D (hdn name p hp) h

theorem seedsFold_nodup (repo : Repo) (fuel : Nat)
    (hdn : ∀ k p, dictGet repo k = some p → p.deps.Nodup) :
    ∀ (ss acc P : List String), acc.Nodup →
      seedsFold repo fuel acc ss = some (.ok P) → P.Nodup
  | [], acc, P, hacc, h => by
    injection h with h
    injection h with h
    subst h
    exact hacc
  | s :: ss, acc, P, hacc, h => by
    rw [seedsFold] at h
    rcases hr : get_sub_dependencies repo fuel s with _ | re <;> rw [hr] at h
    · cases h
    · rcases re with e | d
      · cases h
      · exact seedsFold_nodup repo fuel hdn ss (listUnion acc d) P
          (listUnion_nodup hacc (get_sub_nodup repo hdn fuel s d hr)) h

theorem discovered_extend (repo : Repo) {s n d : String} (hdisc : Discovered repo s n)
    (hnb : n ∉ R_INCLUDED) {p : RPackage} (hp : dictGet repo n = some p)
    (hd : d ∈ p.deps) : Discovered repo s d := by
  induction hdisc with
  | direct p1 hp1 hb =>
    exact Discovered.step p1 hp1 hb hnb (Discovered.direct p hp hd)
  | step p1 hp1 hc hnb1 hdisc1 ih =>
    exact Discovered.step p1 hp1 hc hnb1 (ih hnb hp)

/-- Once the seed loop finishes, the accumulated name set is closed: every
non-built-in dependency of a non-built-in member is itself a member. -/
theorem pset_closed (repo : Repo) (fuel : Nat) (ss acc P : List String)
    (hacc : ∀ y ∈ acc, y ∈ ss)
    (h : seedsFold repo fuel acc ss = some (.ok P)) :
    ∀ n ∈ P, n ∉ R_INCLUDED → ∀ p, dictGet repo n = some p →
      ∀ d ∈ p.deps, d ∈ P := by
  obtain ⟨h1, h2, h3⟩ := seedsFold_ok repo fuel ss acc P h
  intro n hn hnb p hp d hd
  rcases h3 n hn with hnacc | ⟨s, hs, Ds, hDs, hnDs⟩
  · obtain ⟨Dn, hDn, hDnsub⟩ := h2 n (hacc n hnacc)
    exact hDnsub d ((get_sub_ok_iff repo fuel n Dn hDn d).mpr (Discovered.direct p hp hd))
  · obtain ⟨Ds2, hDs2, hsub2⟩ := h2 s hs
    have hdisc : Discovered repo s n := (get_sub_ok_iff repo fuel s Ds hDs n).mp hnDs
    have hdisc2 : Discovered repo s d := discovered_extend repo hdisc hnb hp hd
    exact hsub2 d ((get_sub_ok_iff repo fuel s Ds2 hDs2 d).mpr hdisc2)

theorem indexOf_append_cons {a : String} :
    ∀ {l1 : List String}, a ∉ l1 → ∀ l2, (l1 ++ a :: l2).indexOf a = l1.length := by
  intro l1
  induction l1 with
  | nil =>
    intro _ l2
    rw [List.nil_append]
    exact List.indexOf_cons_self a (a :: l2).tail
  | cons b l1 ih =>
    intro hmem l2
    have hne : b ≠ a := by
      intro he
      exact hmem (he ▸ List.mem_cons_self b l1)
    rw [List.cons_append, List.length_cons, List.indexOf_cons_ne _ hne,
      ih (fun hm => hmem (List.mem_cons_of_mem b hm)) l2]

theorem nodup_getElem_eq_indexOf {l : List String} (hnd : l.Nodup) {i : Nat} {a : String}
    (h : l[i]? = some a) : i = l.indexOf a := by
  obtain ⟨hi, hget⟩ := List.getElem?_eq_some.mp h
  have hmem : a ∈ l := hget ▸ List.getElem_mem hi
  have hidx : l.indexOf a < l.length := List.indexOf_lt_length.mpr hmem
  have hg2 : l[l.indexOf a] = a := List.getElem_indexOf hidx
  exact (List.Nodup.getElem_inj_iff hnd).mp (by rw [hget, hg2])

/-- C1: for an index keyed by record names with set-valued dependency
fields and no cycle among non-built-in names, every build list the run
produces lists each package strictly after every non-built-in direct
dependency of its record. -/
theorem c1_output_respects_dependencies (fuel : Nat) (fileLines : List String)
    (repo : Repo) (out : List RPackage)
    (hkeyed : ∀ k p, dictGet repo k = some p → p.name = k)
    (hdn : ∀ k p, dictGet repo k = some p → p.deps.Nodup)
    (hacyc : AcyclicNB repo)
    (h : generate_full_dependency_list fuel fileLines repo = some (.ok out)) :
    ∀ (i : Nat) (hi : i < out.length) (d : String),
      d ∈ (out.get ⟨i, hi⟩).deps → d ∉ R_INCLUDED →
      ∃ (j : Nat) (hj : j < out.length), j < i ∧ (out.get ⟨j, hj⟩).name = d := by
  obtain ⟨pset, pd, sorted, hsf, hpd, hts, hbo⟩ := gen_ok_parts fuel fileLines repo out h
  obtain ⟨hpdkeys, hpdent⟩ := buildPkgsDict_ok repo pset pd hpd
  have hpsetnd : pset.Nodup :=
    seedsFold_nodup repo fuel hdn _ _ pset (List.nodup_dedup _) hsf
  have hpdnd : (pd.map Prod.fst).Nodup := by
    rw [hpdkeys]
    exact List.Nodup.filter _ hpsetnd
  have hclosedP := pset_closed repo fuel (fileLines.map pyStrip)
    ((fileLines.map pyStrip).dedup) pset (fun y hy => List.mem_dedup.mp hy) hsf
  obtain ⟨bs, hrounds, hsorted⟩ := toposort_flatten_ok pd sorted hts
  obtain ⟨ordAll, ordNodup, ordSub, ordSplit⟩ :=
    rounds_ordering _ _ bs hrounds (prep_nodup hpdnd) (prep_I1 pd) (prep_I3 pd)
  have hsortnd : sorted.Nodup := by
    rw [hsorted]
    exact ordNodup
  obtain ⟨hlen, hget⟩ := buildOut_ok_get repo sorted out hbo
  intro i hi d hdep hdnb
  obtain ⟨ni, P, hfsi, houti, hgetni⟩ := hget i hi
  have houtget : out.get ⟨i, hi⟩ = P := by
    rw [List.get_eq_getElem]
    refine Option.some.inj ?_
    rw [← List.getElem?_eq_getElem hi, houti]
  have hdP : d ∈ P.deps := by
    rw [houtget] at hdep
    exact hdep
  have hfsmem : ni ∈ sorted.filter fun n => decide (n ∉ R_INCLUDED) := by
    obtain ⟨hilen, hieq⟩ := List.getElem?_eq_some.mp hfsi
    exact hieq ▸ List.getElem_mem hilen
  have hni_nb : ni ∉ R_INCLUDED := by
    have := (List.mem_filter.mp hfsmem).2
    simpa using this
  have hni_sorted : ni ∈ sorted := List.mem_of_mem_filter hfsmem
  have hdni : d ≠ ni := by
    intro he
    refine hacyc ni (Relation.TransGen.single ?_)
    exact ⟨hni_nb, hni_nb, P, hgetni, he ▸ hdP⟩
  have hni_keys_prep : ni ∈ (toposortPrep pd).map Prod.fst := by
    refine ordSub ni ?_
    rw [← hsorted]
    exact hni_sorted
  rw [prep_keys] at hni_keys_prep
  have hni_keyspd : ni ∈ pd.map Prod.fst := by
    rcases List.mem_append.mp hni_keys_prep with hk | hk
    · exact hk
    · exfalso
      rw [extrasOf, List.mem_dedup] at hk
      have h1 := (List.mem_filter.mp hk).1
      have h2 := (List.mem_filter.mp hk).2
      obtain ⟨kv1, hkv1, hni_in⟩ := List.mem_flatMap.mp h1
      obtain ⟨kv0, hkv0, rfl⟩ := List.mem_map.mp hkv1
      have hni_v : ni ∈ kv0.2 := List.mem_of_mem_filter hni_in
      obtain ⟨p0, hgetk, hv⟩ := hpdent kv0 hkv0
      have hk0 : kv0.1 ∈ pd.map Prod.fst := List.mem_map.mpr ⟨kv0, hkv0, rfl⟩
      rw [hpdkeys] at hk0
      have hk0pset := (List.mem_filter.mp hk0).1
      have hk0nb : kv0.1 ∉ R_INCLUDED := by
        have := (List.mem_filter.mp hk0).2
        simpa using this
      have hni_pset : ni ∈ pset :=
        hclosedP kv0.1 hk0pset hk0nb p0 hgetk ni (by rw [← hv]; exact hni_v)
      have hni_pd : ni ∈ pd.map Prod.fst := by
        rw [hpdkeys]
        exact List.mem_filter.mpr ⟨hni_pset, by simpa using hni_nb⟩
      simp only [decide_eq_true_eq] at h2
      exact h2 hni_pd
  obtain ⟨kvni, hkvni, hkvni1⟩ := List.mem_map.mp hni_keyspd
  obtain ⟨pi, hgetpi, hvi⟩ := hpdent kvni hkvni
  have hpi : pi = P := by
    rw [hkvni1] at hgetpi
    rw [hgetpi] at hgetni
    injection hgetni
  have hprepmem : (kvni.1, kvni.2.filter fun d2 => decide (d2 ≠ kvni.1)) ∈
      toposortPrep pd := by
    rw [toposortPrep]
    exact List.mem_append_left _ (List.mem_map.mpr ⟨kvni, hkvni, rfl⟩)
  have hdmem : d ∈ kvni.2.filter fun d2 => decide (d2 ≠ kvni.1) := by
    refine List.mem_filter.mpr ⟨?_, ?_⟩
    · rw [hvi, hpi]
      exact hdP
    · rw [hkvni1]
      simpa using hdni
  obtain ⟨l1, l2, l3, hsplit⟩ := ordSplit _ hprepmem d hdmem
  rw [← hsorted] at hsplit
  rw [hkvni1] at hsplit
  have hqd : decide (d ∉ R_INCLUDED) = true := by simpa using hdnb
  have hqni : decide (ni ∉ R_INCLUDED) = true := by simpa using hni_nb
  have hfs_split : sorted.filter (fun n => decide (n ∉ R_INCLUDED)) =
      (l1.filter fun n => decide (n ∉ R_INCLUDED)) ++ d ::
        ((l2.filter fun n => decide (n ∉ R_INCLUDED)) ++ ni ::
          (l3.filter fun n => decide (n ∉ R_INCLUDED))) := by
    rw [hsplit]
    simp only [List.filter_append, List.filter_cons, hqd, hqni, if_true,
      List.append_assoc, List.cons_append]
  have hfsnd : (sorted.filter fun n => decide (n ∉ R_INCLUDED)).Nodup :=
    List.Nodup.filter _ hsortnd
  have hfsnd2 := hfsnd
  rw [hfs_split, List.nodup_append] at hfsnd2
  have hd_notl1 : d ∉ l1.filter fun n => decide (n ∉ R_INCLUDED) := by
    intro hmem
    exact hfsnd2.2.2 hmem (List.mem_cons_self _ _)
  have hj_eq : (sorted.filter fun n => decide (n ∉ R_INCLUDED)).indexOf d =
      (l1.filter fun n => decide (n ∉ R_INCLUDED)).length := by
    rw [hfs_split]
    exact indexOf_append_cons hd_notl1 _
  have hfs_split2 : sorted.filter (fun n => decide (n ∉ R_INCLUDED)) =
      ((l1.filter fun n => decide (n ∉ R_INCLUDED)) ++ d ::
        (l2.filter fun n => decide (n ∉ R_INCLUDED))) ++ ni ::
          (l3.filter fun n => decide (n ∉ R_INCLUDED)) := by
    rw [hfs_split]
    simp [List.append_assoc]
  have hfsnd3 := hfsnd
  rw [hfs_split2, List.nodup_append] at hfsnd3
  have hni_notearly : ni ∉ (l1.filter fun n => decide (n ∉ R_INCLUDED)) ++ d ::
      (l2.filter fun n => decide (n ∉ R_INCLUDED)) := by
    intro hmem
    exact hfsnd3.2.2 hmem (List.mem_cons_self _ _)
  have hi_idx : i = (sorted.filter fun n => decide (n ∉ R_INCLUDED)).indexOf ni :=
    nodup_getElem_eq_indexOf hfsnd hfsi
  have hi_eq : i = ((l1.filter fun n => decide (n ∉ R_INCLUDED)) ++ d ::
      (l2.filter fun n => decide (n ∉ R_INCLUDED))).length := by
    rw [hi_idx, hfs_split2]
    exact indexOf_append_cons hni_notearly _
  have hdfs : d ∈ sorted.filter fun n => decide (n ∉ R_INCLUDED) := by
    rw [hfs_split]
    exact List.mem_append_right _ (List.mem_cons_self _ _)
  have hjlt : (sorted.filter fun n => decide (n ∉ R_INCLUDED)).indexOf d < out.length := by
    rw [← hlen]
    exact List.indexOf_lt_length.mpr hdfs
  refine ⟨(sorted.filter fun n => decide (n ∉ R_INCLUDED)).indexOf d, hjlt, ?_, ?_⟩
  · rw [hj_eq, hi_eq, List.length_append, List.length_cons]
    omega
  · obtain ⟨nj, Pj, hfsj, houtj, hgetnj⟩ := hget _ hjlt
    have hjfslen : (sorted.filter fun n => decide (n ∉ R_INCLUDED)).indexOf d <
        (sorted.filter fun n => decide (n ∉ R_INCLUDED)).length :=
      List.indexOf_lt_length.mpr hdfs
    have hnj : nj = d := by
      rw [List.getElem?_eq_getElem hjfslen] at hfsj
      injection hfsj with hfsj
      rw [← hfsj]
      exact List.getElem_indexOf hjfslen
    have houtgetj : out.get ⟨_, hjlt⟩ = Pj := by
      rw [List.get_eq_getElem]
      refine Option.some.inj ?_
      rw [← List.getElem?_eq_getElem hjlt, houtj]
    rw [houtgetj, hkeyed nj Pj hgetnj]
    exact hnj

theorem repoDepsNodup_of_entries (repo : Repo) (h : ∀ kp ∈ repo, kp.2.deps.Nodup) :
    ∀ k p, dictGet repo k = some p → p.deps.Nodup := by
  intro k p hkp
  exact h (k, p) (dictGet_mem hkp)

/-- Witness for C1 on the three-package example seeded at the top. -/
theorem c1_output_respects_dependencies_witness :
    (∀ kp ∈ ([("AX", ⟨"AX", "1", []⟩), ("BX", ⟨"BX", "2", ["AX"]⟩),
        ("C", ⟨"C", "3", ["BX", "base"]⟩)] : Repo), kp.2.name = kp.1) ∧
    AcyclicNB [("AX", ⟨"AX", "1", []⟩), ("BX", ⟨"BX", "2", ["AX"]⟩),
      ("C", ⟨"C", "3", ["BX", "base"]⟩)] ∧
    generate_full_dependency_list 5 ["C"]
        [("AX", ⟨"AX", "1", []⟩), ("BX", ⟨"BX", "2", ["AX"]⟩),
          ("C", ⟨"C", "3", ["BX", "base"]⟩)] =
      some (.ok [⟨"AX", "1", []⟩, ⟨"BX", "2", ["AX"]⟩, ⟨"C", "3", ["BX", "base"]⟩]) ∧
    ∀ (i : Nat)
      (hi : i < ([⟨"AX", "1", []⟩, ⟨"BX", "2", ["AX"]⟩,
        ⟨"C", "3", ["BX", "base"]⟩] : List RPackage).length) (d : String),
      d ∈ (([⟨"AX", "1", []⟩, ⟨"BX", "2", ["AX"]⟩,
        ⟨"C", "3", ["BX", "base"]⟩] : List RPackage).get ⟨i, hi⟩).deps →
      d ∉ R_INCLUDED →
      ∃ (j : Nat) (hj : j < ([⟨"AX", "1", []⟩, ⟨"BX", "2", ["AX"]⟩,
        ⟨"C", "3", ["BX", "base"]⟩] : List RPackage).length), j < i ∧
        (([⟨"AX", "1", []⟩, ⟨"BX", "2", ["AX"]⟩,
          ⟨"C", "3", ["BX", "base"]⟩] : List RPackage).get ⟨j, hj⟩).name = d := by
  have hacyc : AcyclicNB [("AX", ⟨"AX", "1", []⟩), ("BX", ⟨"BX", "2", ["AX"]⟩),
      ("C", ⟨"C", "3", ["BX", "base"]⟩)] := by
    refine acyclic_of_measure _
      (fun s => if s = "C" then 2 else if s = "BX" then 1 else 0) ?_
    rintro a b ⟨hanb, hbnb, p, hget, hmemd⟩
    have hmem := dictGet_mem hget
    rcases List.mem_cons.mp hmem with heq | hmem2
    · have hp : p = ⟨"AX", "1", []⟩ := congrArg Prod.snd heq
      rw [hp] at hmemd
      cases hmemd
    · rcases List.mem_cons.mp hmem2 with heq | hmem3
      · have ha : a = "BX" := congrArg Prod.fst heq
        have hp : p = ⟨"BX", "2", ["AX"]⟩ := congrArg Prod.snd heq
        subst ha
        rw [hp] at hmemd
        rcases List.mem_singleton.mp hmemd with rfl
        decide
      · rcases List.mem_singleton.mp hmem3 with heq
        have ha : a = "C" := congrArg Prod.fst heq
        have hp : p = ⟨"C", "3", ["BX", "base"]⟩ := congrArg Prod.snd heq
        subst ha
        rw [hp] at hmemd
        rcases List.mem_cons.mp hmemd with rfl | hmemd2
        · decide
        · rcases List.mem_singleton.mp hmemd2 with rfl
          exact absurd (by decide : ("base" : String) ∈ R_INCLUDED) hbnb
  refine ⟨by decide, hacyc, rfl, ?_⟩
  exact c1_output_respects_dependencies 5 ["C"]
    [("AX", ⟨"AX", "1", []⟩), ("BX", ⟨"BX", "2", ["AX"]⟩),
      ("C", ⟨"C", "3", ["BX", "base"]⟩)]
    [⟨"AX", "1", []⟩, ⟨"BX", "2", ["AX"]⟩, ⟨"C", "3", ["BX", "base"]⟩]
    (repoKeyed_of_entries _ (by decide)) (repoDepsNodup_of_entries _ (by decide))
    hacyc rfl

end PkgSnap
